import Mathlib

/-!
# file_manager.cpp: a shallow embedding of the Text line buffer

A `Text` owns one byte buffer holding a whole file and an array of pointers to
the first byte of every line.  Bytes are natural numbers (a `char` holds
`0 .. 255`), a pointer into the buffer is the offset it points at, and the
null pointer is `none`.  An access outside an allocation is the fault
`Fault.outOfBounds`; every allocation is taken to succeed.
-/

namespace FileManager

/-- Ways in which a run of the embedded code can fail to have a defined result. -/
inductive Fault where
  | outOfBounds
  | outOfFuel
  deriving DecidableEq, Repr

/-- Outcome of running embedded code: a value, or a fault. -/
inductive Run (α : Type) where
  | ok (val : α)
  | fault (f : Fault)
  deriving DecidableEq, Repr

/-- The byte '\n'. -/
def NL : Nat := 10

/-- The byte '\0'. -/
def NUL : Nat := 0

/-- The largest value of `size_t` (64 bit). -/
def SIZE_MAX : Nat := 2 ^ 64 - 1

/-- The flag constant `TEXT_CASE_FORMAT_UPPER`. -/
def TEXT_CASE_FORMAT_UPPER : String := "u"

/-- The flag constant `TEXT_CASE_FORMAT_LOWER`. -/
def TEXT_CASE_FORMAT_LOWER : String := "l"

/-- The struct `Text`: `buffer` is the allocated byte array, `lines` the
allocated pointer array (offsets into `buffer`, `none` for `NULL`). -/
structure Text where
  bytesCount : Nat
  buffer : List Nat
  lines : List (Option Nat)
  currPos : Nat
  linesCount : Nat
  deriving DecidableEq, Repr

/-- The `size_t` expression `n - 1`, which wraps around at `n = 0`. -/
def sizePred (n : Nat) : Nat :=
  if n = 0 then SIZE_MAX else n - 1

/-- The function `replaceAllOccurrences(buffer, bufferSize, target, replacement)`:
the rewritten buffer and the number of replaced bytes. -/
def replaceAllOccurrences : List Nat → Nat → Nat → Nat → Run (List Nat × Nat)
  | buffer, 0, _, _ => .ok (buffer, 0)
  | [], _ + 1, _, _ => .fault .outOfBounds
  | b :: rest, n + 1, target, replacement =>
    match replaceAllOccurrences rest n target replacement with
    | .fault f => .fault f
    | .ok (rest', numOfOccurences) =>
      if b = target then .ok (replacement :: rest', numOfOccurences + 1)
      else .ok (b :: rest', numOfOccurences)

/-- The loop shared by `readTextFromFile` and `copyText`:
`for (i = ...; i < bound; i++) if (buffer[i] == 0) lines[currLinePos++] = &buffer[i + 1];`
with `todo` iterations left to run. -/
def recordLineStarts (buffer : List Nat) :
    Nat → Nat → List (Option Nat) → Nat → Run (List (Option Nat))
  | 0, _, lines, _ => .ok lines
  | todo + 1, i, lines, currLinePos =>
    match buffer[i]? with
    | none => .fault .outOfBounds
    | some b =>
      if b = NUL then
        if currLinePos < lines.length then
          recordLineStarts buffer todo (i + 1) (lines.set currLinePos (some (i + 1)))
            (currLinePos + 1)
        else .fault .outOfBounds
      else recordLineStarts buffer todo (i + 1) lines currLinePos

/-- The tail of `readTextFromFile` and of `copyText` from the allocation of
`lines` on: `calloc`, the store to `lines[0]`, and the recording loop. -/
def splitLines (buffer : List Nat) (bytesCount linesCount : Nat) : Run (List (Option Nat)) :=
  let lines : List (Option Nat) := List.replicate linesCount none
  if 0 < lines.length then
    recordLineStarts buffer (sizePred bytesCount) 0 (lines.set 0 (some 0)) 1
  else .fault .outOfBounds

/-- The function `readTextFromFile(fileName)`.  The argument is what the file
system gives for the name: `none` when `fopen` fails, else the bytes that
`fread` delivers.  The result is `none` for `NULL`. -/
def readTextFromFile (file : Option (List Nat)) : Run (Option Text) :=
  match file with
  | none => .ok none
  | some content =>
    let bytesCount := content.length
    if bytesCount = 0 then .ok none
    else
      match replaceAllOccurrences (content ++ [NUL]) bytesCount NL NUL with
      | .fault f => .fault f
      | .ok (buffer, numOfOccurences) =>
        let linesCount := numOfOccurences + 1
        match splitLines buffer bytesCount linesCount with
        | .fault f => .fault f
        | .ok lines =>
          .ok (some
            { bytesCount := bytesCount, buffer := buffer, lines := lines,
              currPos := 0, linesCount := linesCount })

/-- The function `copyText(text)`: the copy and the (untouched) original. -/
def copyText (text : Text) : Run (Text × Text) :=
  let bytesCount := text.bytesCount
  if text.buffer.length < bytesCount then .fault .outOfBounds
  else
    let buffer := text.buffer.take bytesCount ++ [NUL]
    let linesCount := text.linesCount
    match splitLines buffer bytesCount linesCount with
    | .fault f => .fault f
    | .ok lines =>
      .ok ({ bytesCount := bytesCount, buffer := buffer, lines := lines,
             currPos := 0, linesCount := linesCount }, text)

/-- The call `fwrite(buffer, 1, count, file)` on a destination that accepts
every byte: the number of bytes written and the destination afterwards. -/
def fwrite (buffer : List Nat) (count : Nat) (file : List Nat) : Run (Nat × List Nat) :=
  if buffer.length < count then .fault .outOfBounds
  else .ok (count, file ++ buffer.take count)

/-- The function `writeTextToFile(file, text)`: the returned flag, the
destination afterwards and the text afterwards. -/
def writeTextToFile (file : List Nat) (text : Text) : Run (Bool × List Nat × Text) :=
  match replaceAllOccurrences text.buffer text.bytesCount NUL NL with
  | .fault f => .fault f
  | .ok (buffer, _) =>
    match fwrite buffer text.bytesCount file with
    | .fault f => .fault f
    | .ok (written, file') =>
      .ok (decide (written = text.bytesCount), file', { text with buffer := buffer })

/-- The function `nextTextLine(text)`: the returned pointer and the text afterwards. -/
def nextTextLine (text : Text) : Run (Option Nat × Text) :=
  if text.currPos ≥ text.linesCount then .ok (none, text)
  else
    match text.lines[text.currPos]? with
    | none => .fault .outOfBounds
    | some line => .ok (line, { text with currPos := text.currPos + 1 })

/-- The function `resetTextToStart(text)`. -/
def resetTextToStart (text : Text) : Text :=
  { text with currPos := 0 }

/-- The function `getLine(text, i)`. -/
def getLine (text : Text) (i : Nat) : Run (Option Nat) :=
  match text.lines[i]? with
  | none => .fault .outOfBounds
  | some line => .ok line

/-- The function `getCurrentLineNumber(text)`. -/
def getCurrentLineNumber (text : Text) : Nat :=
  sizePred text.currPos

/-- The body of `strToLower` on one byte. -/
def lowerByte (c : Nat) : Nat :=
  if 65 ≤ c ∧ c ≤ 90 then 97 + c - 65 else c

/-- The body of `strToUpper` on one byte. -/
def upperByte (c : Nat) : Nat :=
  if 97 ≤ c ∧ c ≤ 122 then 65 + c - 97 else c

/-- The loop `for (; *str != 0; str++) *str = f(*str);` run on the bytes from
`str` to the end of the allocation: those bytes afterwards and how far `str`
has moved. -/
def strWalk (f : Nat → Nat) : List Nat → Run (List Nat × Nat)
  | [] => .fault .outOfBounds
  | c :: rest =>
    if c = NUL then .ok (c :: rest, 0)
    else
      match strWalk f rest with
      | .fault e => .fault e
      | .ok (rest', moved) => .ok (f c :: rest', moved + 1)

/-- A string function applied to the pointer `buffer + str`: the buffer
afterwards and the final value of `str`. -/
def strAt (f : Nat → Nat) (buffer : List Nat) (str : Nat) : Run (List Nat × Nat) :=
  match strWalk f (buffer.drop str) with
  | .fault e => .fault e
  | .ok (tail, moved) => .ok (buffer.take str ++ tail, str + moved)

/-- The function `strToLower(str)` for `str` pointing at offset `str` of `buffer`:
the buffer afterwards and the returned pointer. -/
def strToLower (buffer : List Nat) (str : Nat) : Run (List Nat × Nat) :=
  strAt lowerByte buffer str

/-- The function `strToUpper(str)` for `str` pointing at offset `str` of `buffer`:
the buffer afterwards and the returned pointer. -/
def strToUpper (buffer : List Nat) (str : Nat) : Run (List Nat × Nat) :=
  strAt upperByte buffer str

/-- The `while ((nextLine = nextTextLine(text)) != NULL)` loop of
`makeTextCaseHomogeneous`. -/
def caseLoop (isToUpper : Bool) : Nat → Text → Run Text
  | 0, _ => .fault .outOfFuel
  | fuel + 1, text =>
    match nextTextLine text with
    | .fault e => .fault e
    | .ok (none, text') => .ok text'
    | .ok (some nextLine, text') =>
      match (if isToUpper then strToUpper text'.buffer nextLine
             else strToLower text'.buffer nextLine) with
      | .fault e => .fault e
      | .ok (buffer, _) => caseLoop isToUpper fuel { text' with buffer := buffer }

/-- The part of `makeTextCaseHomogeneous` after the flag is recognised. -/
def homogenise (isToUpper : Bool) (text : Text) : Run (Bool × Text) :=
  let oldCurrPos := text.currPos
  match caseLoop isToUpper (text.linesCount + 1) { text with currPos := 0 } with
  | .fault e => .fault e
  | .ok text' => .ok (true, { text' with currPos := oldCurrPos })

/-- The function `makeTextCaseHomogeneous(text, flag)`: whether the returned
pointer is `text` (`false` for `NULL`) and the text afterwards. -/
def makeTextCaseHomogeneous (text : Text) (flag : String) : Run (Bool × Text) :=
  if flag = TEXT_CASE_FORMAT_UPPER then homogenise true text
  else if flag = TEXT_CASE_FORMAT_LOWER then homogenise false text
  else .ok (false, text)

/-! ## Auxiliary definitions used to state and prove the properties -/

/-- What `replaceAllOccurrences` stores for the byte `b`. -/
def replaceByte (target replacement b : Nat) : Nat :=
  if b = target then replacement else b

/-- Offsets recorded by the line-start loop while it scans `scan`, whose first
byte sits at offset `i`. -/
def lineStartsFrom : Nat → List Nat → List Nat
  | _, [] => []
  | i, b :: rest =>
    if b = NUL then (i + 1) :: lineStartsFrom (i + 1) rest
    else lineStartsFrom (i + 1) rest

/-- Line starts stored by `splitLines` behind `lines[0]`. -/
def recordedStarts (buffer : List Nat) (bytesCount : Nat) : List Nat :=
  lineStartsFrom 0 (buffer.take (bytesCount - 1))

/-- The buffer of a text loaded from `content`. -/
def loadedBuffer (content : List Nat) : List Nat :=
  content.map (replaceByte NL NUL) ++ [NUL]

/-- The text loaded from `content` when the line-start loop stays in bounds. -/
def loadedText (content : List Nat) : Text :=
  { bytesCount := content.length
    buffer := loadedBuffer content
    lines := some 0 :: (recordedStarts (loadedBuffer content) content.length).map some ++
      List.replicate
        (content.count NL - (recordedStarts (loadedBuffer content) content.length).length) none
    currPos := 0
    linesCount := content.count NL + 1 }

/-- Reading a string byte by byte from the head of an allocation up to its NUL. -/
def cStringWalk : List Nat → Run (List Nat)
  | [] => .fault .outOfBounds
  | c :: rest =>
    if c = NUL then .ok []
    else
      match cStringWalk rest with
      | .fault e => .fault e
      | .ok s => .ok (c :: s)

/-- The NUL-terminated string a caller reads at the pointer `buffer + str`. -/
def cString (buffer : List Nat) (str : Nat) : Run (List Nat) :=
  cStringWalk (buffer.drop str)

/-- A caller's full iteration
`while ((line = nextTextLine(text)) != NULL) use(line);`
collecting each line as a string, together with the text afterwards. -/
def readLines : Nat → Text → Run (List (List Nat) × Text)
  | 0, _ => .fault .outOfFuel
  | fuel + 1, text =>
    match nextTextLine text with
    | .fault e => .fault e
    | .ok (none, text') => .ok ([], text')
    | .ok (some line, text') =>
      match cString text'.buffer line with
      | .fault e => .fault e
      | .ok s =>
        match readLines fuel text' with
        | .fault e => .fault e
        | .ok (ss, text'') => .ok (s :: ss, text'')

/-- The bytes from offset `str` up to the next NUL. -/
def stringAt (buffer : List Nat) (str : Nat) : List Nat :=
  (buffer.drop str).takeWhile (fun c => decide (c ≠ NUL))

/-- The lines a file content stands for: its segments between consecutive
'\n' bytes, without the final empty segment when the content ends with '\n'. -/
def expectedLines (content : List Nat) : List (List Nat) :=
  if content.getLast? = some NL then (content.splitOn NL).dropLast
  else content.splitOn NL

/-- A caller that loads a file with `readTextFromFile` and hands the text to
`writeTextToFile` with an empty destination: the flag returned and the bytes
written (`none` when loading returns `NULL`). -/
def loadThenWrite (file : Option (List Nat)) : Run (Option (Bool × List Nat)) :=
  match readTextFromFile file with
  | .fault e => .fault e
  | .ok none => .ok none
  | .ok (some text) =>
    match writeTextToFile [] text with
    | .fault e => .fault e
    | .ok (ret, out, _) => .ok (some (ret, out))

/-- What the proofs use of a case map: it is idempotent and neither makes nor
removes a NUL byte. -/
structure CaseMap (f : Nat → Nat) : Prop where
  idem : ∀ c, f (f c) = f c
  zero_iff : ∀ c, f c = NUL ↔ c = NUL

/-- The byte map that `makeTextCaseHomogeneous` applies for a recognised flag. -/
def caseByte (isToUpper : Bool) : Nat → Nat :=
  if isToUpper then upperByte else lowerByte

/-- A byte slot that holds its original value or the case-mapped one. -/
def Part (f : Nat → Nat) (orig cur : Option Nat) : Prop :=
  cur = orig ∨ cur = orig.map f

/-- Representation invariant of a `Text`: the allocations have their declared
sizes, the buffer ends in its sentinel, `lines` holds the offsets `0 :: starts`
followed by `pad` null pointers, and every byte lies in the string that begins
at one of those offsets. -/
structure Valid (text : Text) (starts : List Nat) (pad : Nat) : Prop where
  bytes_pos : 0 < text.bytesCount
  buffer_length : text.buffer.length = text.bytesCount + 1
  sentinel : text.buffer[text.bytesCount]? = some NUL
  lines_eq : text.lines = (0 :: starts).map some ++ List.replicate pad none
  linesCount_eq : text.linesCount = text.lines.length
  cursor_le : text.currPos ≤ text.linesCount
  starts_le : ∀ s ∈ starts, s ≤ text.bytesCount
  covered : ∀ i : Nat, i < text.bytesCount →
    ∃ s ∈ 0 :: starts, s ≤ i ∧ ∀ j : Nat, s ≤ j → j < i → text.buffer[j]? ≠ some NUL

/-- Texts obtained from `readTextFromFile` and then only iterated, reset or
case-normalised. -/
inductive Loaded : Text → Prop where
  | read (file : Option (List Nat)) (text : Text) :
      readTextFromFile file = .ok (some text) → Loaded text
  | next (text text' : Text) (line : Option Nat) :
      Loaded text → nextTextLine text = .ok (line, text') → Loaded text'
  | reset (text : Text) : Loaded text → Loaded (resetTextToStart text)
  | homogeneous (text text' : Text) (flag : String) (ret : Bool) :
      Loaded text → makeTextCaseHomogeneous text flag = .ok (ret, text') → Loaded text'

/-- Texts that the public operations can produce.  `struct Text` is defined in
file_manager.cpp alone, so a caller holds no Text but these. -/
inductive Reachable : Text → Prop where
  | read (file : Option (List Nat)) (text : Text) :
      readTextFromFile file = .ok (some text) → Reachable text
  | next (text text' : Text) (line : Option Nat) :
      Reachable text → nextTextLine text = .ok (line, text') → Reachable text'
  | reset (text : Text) : Reachable text → Reachable (resetTextToStart text)
  | homogeneous (text text' : Text) (flag : String) (ret : Bool) :
      Reachable text → makeTextCaseHomogeneous text flag = .ok (ret, text') → Reachable text'
  | write (text text' : Text) (file file' : List Nat) (ret : Bool) :
      Reachable text → writeTextToFile file text = .ok (ret, file', text') → Reachable text'
  | copy (text text' copy : Text) :
      Reachable text → copyText text = .ok (copy, text') → Reachable copy

/-- The Text that `readTextFromFile` returns for the content "aB\n1d\n". -/
def exampleText : Text :=
  { bytesCount := 6, buffer := [97, 66, 0, 49, 100, 0, 0], lines := [some 0, some 3, none],
    currPos := 0, linesCount := 3 }

/-- The Text `exampleText` after `makeTextCaseHomogeneous` with flag "u" and one
call of `nextTextLine`. -/
def exampleTextUpper : Text :=
  { bytesCount := 6, buffer := [65, 66, 0, 49, 68, 0, 0], lines := [some 0, some 3, none],
    currPos := 1, linesCount := 3 }

/-- The Text loaded from the content "a" after one call of `nextTextLine`: its
cursor equals `linesCount`. -/
def exampleTextAtEnd : Text :=
  { bytesCount := 1, buffer := [97, 0], lines := [some 0], currPos := 1, linesCount := 1 }

/-- The Text `text'` is what `text` becomes through calls of `nextTextLine` alone. -/
inductive Iterated : Text → Text → Prop where
  | refl (text : Text) : Iterated text text
  | step (text mid text' : Text) (line : Option Nat) :
      Iterated text mid → nextTextLine mid = .ok (line, text') → Iterated text text'

/-- The Text `exampleText` after one call of `nextTextLine`. -/
def exampleTextNext : Text :=
  { bytesCount := 6, buffer := [97, 66, 0, 49, 100, 0, 0], lines := [some 0, some 3, none],
    currPos := 1, linesCount := 3 }

/-- A caller's `k` consecutive calls of `nextTextLine`: the pointers returned,
in order, and the text afterwards. -/
def nextCalls : Nat → Text → Run (List (Option Nat) × Text)
  | 0, text => .ok ([], text)
  | k + 1, text =>
    match nextTextLine text with
    | .fault e => .fault e
    | .ok (line, text') =>
      match nextCalls k text' with
      | .fault e => .fault e
      | .ok (rets, text'') => .ok (line :: rets, text'')

/-- Position of the last pointer in `rets` that is a line and not `NULL`, the
first position being `i`.  For calls made from cursor 0 the position of a
returned line is its index in the `lines` array. -/
def lastLineFrom (i : Nat) : List (Option Nat) → Option Nat
  | [] => none
  | r :: rest =>
    match lastLineFrom (i + 1) rest with
    | some j => some j
    | none => if r.isSome then some i else none

/-- The Text that `readTextFromFile` returns for the content "a\n": the second
entry of `lines` is the null pointer. -/
def exampleTextNewline : Text :=
  { bytesCount := 2, buffer := [97, 0, 0], lines := [some 0, none], currPos := 0,
    linesCount := 2 }

/-- The Text `exampleText` after `writeTextToFile`: the buffer holds "aB\n1d\n"
again, the entries of `lines` are as before. -/
def exampleTextWritten : Text :=
  { bytesCount := 6, buffer := [97, 66, 10, 49, 100, 10, 0], lines := [some 0, some 3, none],
    currPos := 0, linesCount := 3 }

/-- Texts that the public operations can produce and on which `writeTextToFile`
has not been called since `readTextFromFile` or `copyText` returned them. -/
inductive Intact : Text → Prop where
  | read (file : Option (List Nat)) (text : Text) :
      readTextFromFile file = .ok (some text) → Intact text
  | copy (text text' copy : Text) :
      Reachable text → copyText text = .ok (copy, text') → Intact copy
  | next (text text' : Text) (line : Option Nat) :
      Intact text → nextTextLine text = .ok (line, text') → Intact text'
  | reset (text : Text) : Intact text → Intact (resetTextToStart text)
  | homogeneous (text text' : Text) (flag : String) (ret : Bool) :
      Intact text → makeTextCaseHomogeneous text flag = .ok (ret, text') → Intact text'

/-- The Text loaded from "a\nb" after `writeTextToFile`. -/
def exampleTextStale : Text :=
  { bytesCount := 3, buffer := [97, 10, 98, 0], lines := [some 0, some 2], currPos := 0,
    linesCount := 2 }

/-- The copy that `copyText` returns for `exampleTextStale`. -/
def exampleTextStaleCopy : Text :=
  { bytesCount := 3, buffer := [97, 10, 98, 0], lines := [some 0, none], currPos := 0,
    linesCount := 2 }

/-- The Text that `readTextFromFile` returns for the content "a\nb". -/
def exampleTextTwoLines : Text :=
  { bytesCount := 3, buffer := [97, 0, 98, 0], lines := [some 0, some 2], currPos := 0,
    linesCount := 2 }

/-- A caller that loads a file with `readTextFromFile`, normalises the text
with `makeTextCaseHomogeneous` and `flag`, and hands it to `writeTextToFile`
with an empty destination: the flag returned and the bytes written (`none`
when one of the first two calls returns `NULL`). -/
def loadNormaliseWrite (file : Option (List Nat)) (flag : String) :
    Run (Option (Bool × List Nat)) :=
  match readTextFromFile file with
  | .fault e => .fault e
  | .ok none => .ok none
  | .ok (some text) =>
    match makeTextCaseHomogeneous text flag with
    | .fault e => .fault e
    | .ok (false, _) => .ok none
    | .ok (true, text') =>
      match writeTextToFile [] text' with
      | .fault e => .fault e
      | .ok (ret, out, _) => .ok (some (ret, out))

/-- The statements of `readTextFromFile` up to the one that stores
`text->linesCount` (the allocation and filling of `lines` come after it): the
split buffer and the value stored in `linesCount`, `none` where the function
has returned `NULL`. -/
def readTextCounts (file : Option (List Nat)) : Run (Option (List Nat × Nat)) :=
  match file with
  | none => .ok none
  | some content =>
    let bytesCount := content.length
    if bytesCount = 0 then .ok none
    else
      match replaceAllOccurrences (content ++ [NUL]) bytesCount NL NUL with
      | .fault f => .fault f
      | .ok (buffer, numOfOccurences) => .ok (some (buffer, numOfOccurences + 1))

/-! ## Lemmas and theorems -/

/-! ### The loader: `replaceAllOccurrences`, the line-start loop, `readTextFromFile` -/

theorem replaceAllOccurrences_eq (target replacement : Nat) :
    ∀ (buffer : List Nat) (n : Nat), n ≤ buffer.length →
      replaceAllOccurrences buffer n target replacement =
        .ok ((buffer.take n).map (replaceByte target replacement) ++ buffer.drop n,
             (buffer.take n).count target) := by
  intro buffer
  induction buffer with
  | nil =>
    intro n hn
    have : n = 0 := by simpa using hn
    subst this
    simp [replaceAllOccurrences]
  | cons b rest ih =>
    intro n hn
    cases n with
    | zero => simp [replaceAllOccurrences]
    | succ n =>
      have hn' : n ≤ rest.length := by simpa using hn
      simp only [replaceAllOccurrences, ih n hn']
      by_cases hb : b = target
      · subst hb
        simp [replaceByte]
      · simp [replaceByte, hb, List.count_cons]

theorem set_length_append {α : Type} (done : List α) (a x : α) (rest : List α) :
    (done ++ a :: rest).set done.length x = done ++ x :: rest := by
  induction done with
  | nil => rfl
  | cons d ds ih => simp [ih]

theorem getElem?_length_append {α : Type} (pre : List α) (b : α) (rest : List α) :
    (pre ++ b :: rest)[pre.length]? = some b := by
  induction pre with
  | nil => simp
  | cons d ds ih => simpa using ih

theorem recordLineStarts_ok :
    ∀ (scan pre post : List Nat) (done : List (Option Nat)) (free : Nat),
      (lineStartsFrom pre.length scan).length ≤ free →
      recordLineStarts (pre ++ scan ++ post) scan.length pre.length
          (done ++ List.replicate free none) done.length =
        .ok (done ++ (lineStartsFrom pre.length scan).map some ++
              List.replicate (free - (lineStartsFrom pre.length scan).length) none) := by
  intro scan
  induction scan with
  | nil =>
    intro pre post done free _
    simp [recordLineStarts, lineStartsFrom]
  | cons b rest ih =>
    intro pre post done free hfree
    have hget : (pre ++ b :: rest ++ post)[pre.length]? = some b := by
      simpa using getElem?_length_append pre b (rest ++ post)
    have hbuf : pre ++ b :: rest ++ post = (pre ++ [b]) ++ rest ++ post := by simp
    simp only [List.length_cons, recordLineStarts, hget]
    by_cases hb : b = NUL
    · simp only [lineStartsFrom, hb, if_true, List.length_cons] at hfree ⊢
      obtain ⟨free', rfl⟩ : ∃ f, free = f + 1 := ⟨free - 1, by omega⟩
      have hlt : done.length < (done ++ List.replicate (free' + 1) none).length := by
        simp
      rw [if_pos hlt, List.replicate_succ, set_length_append]
      have := ih (pre ++ [NUL]) post (done ++ [some (pre.length + 1)]) free'
        (by simpa using hfree)
      simp only [List.length_append, List.length_singleton, List.append_assoc,
        List.singleton_append] at this
      subst hb
      simp only [List.append_assoc, List.cons_append] at this ⊢
      rw [this]
      simp
    · simp only [lineStartsFrom, hb, if_false] at hfree ⊢
      have := ih (pre ++ [b]) post done free (by simpa using hfree)
      simp only [List.length_append, List.length_singleton, List.append_assoc,
        List.singleton_append] at this
      simp only [List.append_assoc, List.cons_append] at this ⊢
      rw [this]

theorem sizePred_pos {n : Nat} (h : 0 < n) : sizePred n = n - 1 := by
  unfold sizePred
  rw [if_neg (by omega)]

theorem splitLines_ok (buffer : List Nat) (bytesCount linesCount : Nat)
    (hn : 0 < bytesCount) (hlen : bytesCount ≤ buffer.length + 1)
    (hroom : (recordedStarts buffer bytesCount).length + 1 ≤ linesCount) :
    splitLines buffer bytesCount linesCount =
      .ok (some 0 :: (recordedStarts buffer bytesCount).map some ++
        List.replicate (linesCount - 1 - (recordedStarts buffer bytesCount).length) none) := by
  obtain ⟨free, rfl⟩ : ∃ f, linesCount = f + 1 := ⟨linesCount - 1, by omega⟩
  have hscan : (buffer.take (bytesCount - 1)).length = bytesCount - 1 := by
    rw [List.length_take]; omega
  have h := recordLineStarts_ok (buffer.take (bytesCount - 1)) [] (buffer.drop (bytesCount - 1))
    [some 0] free (by simpa [recordedStarts] using hroom)
  simp only [List.nil_append, List.take_append_drop, hscan, List.length_nil,
    List.length_singleton, List.singleton_append] at h
  simp only [splitLines, List.length_replicate, Nat.succ_pos, if_true, sizePred_pos hn,
    List.replicate_succ, List.set_cons_zero, Nat.add_sub_cancel]
  rw [h]
  simp [recordedStarts]

theorem loadedBuffer_replace (content : List Nat) :
    replaceAllOccurrences (content ++ [NUL]) content.length NL NUL =
      .ok (loadedBuffer content, content.count NL) := by
  rw [replaceAllOccurrences_eq NL NUL (content ++ [NUL]) content.length (by simp)]
  simp [loadedBuffer]

theorem readTextFromFile_ok (content : List Nat) (hne : content ≠ [])
    (hroom : (recordedStarts (loadedBuffer content) content.length).length ≤ content.count NL) :
    readTextFromFile (some content) = .ok (some (loadedText content)) := by
  have hpos : 0 < content.length := List.length_pos.mpr hne
  have hsplit := splitLines_ok (loadedBuffer content) content.length (content.count NL + 1)
    hpos (by simp [loadedBuffer]; omega) (by omega)
  simp only [readTextFromFile, loadedBuffer_replace, hsplit]
  rw [if_neg (by omega)]
  simp [loadedText]

theorem length_lineStartsFrom (i : Nat) (scan : List Nat) :
    (lineStartsFrom i scan).length = scan.count NUL := by
  induction scan generalizing i with
  | nil => rfl
  | cons b rest ih =>
    by_cases hb : b = NUL
    · subst hb; simp [lineStartsFrom, ih]
    · have : ¬ (NUL = b) := fun h => hb h.symm
      simp [lineStartsFrom, hb, ih, List.count_cons, this]

theorem count_NUL_map_replace (content : List Nat) (hnul : NUL ∉ content) :
    (content.map (replaceByte NL NUL)).count NUL = content.count NL := by
  induction content with
  | nil => rfl
  | cons b rest ih =>
    have hb : b ≠ NUL := fun h => hnul (by simp [h])
    have hrest : NUL ∉ rest := fun h => hnul (by simp [h])
    by_cases h10 : b = NL
    · subst h10; simp [replaceByte, ih hrest]
    · have h1 : ¬ (NUL = b) := fun h => hb h.symm
      have h2 : ¬ (NL = b) := fun h => h10 h.symm
      simp [replaceByte, h10, hb, ih hrest, List.count_cons, h1, h2]

theorem recordedStarts_room (content : List Nat) (hnul : NUL ∉ content) :
    (recordedStarts (loadedBuffer content) content.length).length ≤ content.count NL := by
  rw [recordedStarts, length_lineStartsFrom, ← count_NUL_map_replace content hnul]
  apply List.Sublist.count_le
  have : (loadedBuffer content).take (content.length - 1) =
      (content.map (replaceByte NL NUL)).take (content.length - 1) := by
    rw [loadedBuffer, List.take_append_of_le_length (by simp)]
  rw [this]
  exact List.take_sublist _ _

/-! ### Reading the lines back through `nextTextLine` -/

theorem cStringWalk_ok (l : List Nat) (h : NUL ∈ l) :
    cStringWalk l = .ok (l.takeWhile (fun c => decide (c ≠ NUL))) := by
  induction l with
  | nil => simp at h
  | cons c rest ih =>
    by_cases hc : c = NUL
    · simp [cStringWalk, hc]
    · have hrest : NUL ∈ rest := by
        rcases List.mem_cons.mp h with h | h
        · exact absurd h.symm hc
        · exact h
      simp [cStringWalk, hc, ih hrest]

theorem cString_ok (buffer : List Nat) (str : Nat) (h : NUL ∈ buffer.drop str) :
    cString buffer str = .ok (stringAt buffer str) :=
  cStringWalk_ok _ h

theorem readLines_ok :
    ∀ (rest : List Nat) (done : List (Option Nat)) (pad fuel : Nat) (text : Text),
      text.lines = done ++ rest.map some ++ List.replicate pad none →
      text.currPos = done.length →
      text.linesCount = text.lines.length →
      rest.length < fuel →
      (∀ s ∈ rest, NUL ∈ text.buffer.drop s) →
      readLines fuel text =
        .ok (rest.map (stringAt text.buffer),
             { text with currPos := done.length + rest.length + min pad 1 }) := by
  intro rest
  induction rest with
  | nil =>
    intro done pad fuel text hlines hpos hcount hfuel _
    obtain ⟨fuel, rfl⟩ : ∃ f, fuel = f + 1 := ⟨fuel - 1, by simp at hfuel; omega⟩
    simp only [List.map_nil, List.append_nil] at hlines
    have hlc : text.linesCount = done.length + pad := by
      rw [hcount, hlines]; simp
    cases pad with
    | zero =>
      have : text.currPos ≥ text.linesCount := by omega
      simp only [readLines, nextTextLine, if_pos this]
      simp [← hpos]
    | succ pad =>
      have hlt : ¬ text.currPos ≥ text.linesCount := by omega
      have hget : text.lines[text.currPos]? = some none := by
        rw [hlines, hpos, List.replicate_succ]
        exact getElem?_length_append _ _ _
      simp only [readLines, nextTextLine, if_neg hlt, hget]
      simp [← hpos]
  | cons s rest ih =>
    intro done pad fuel text hlines hpos hcount hfuel hnul
    obtain ⟨fuel, rfl⟩ : ∃ f, fuel = f + 1 := ⟨fuel - 1, by simp at hfuel; omega⟩
    have hlc : text.linesCount = done.length + (rest.length + 1) + pad := by
      rw [hcount, hlines]; simp; omega
    have hlt : ¬ text.currPos ≥ text.linesCount := by omega
    have hget : text.lines[text.currPos]? = some (some s) := by
      rw [hlines, hpos, List.map_cons, List.append_assoc, List.cons_append]
      exact getElem?_length_append _ _ _
    have hs := cString_ok text.buffer s (hnul s (by simp))
    have hih := ih (done ++ [some s]) pad fuel { text with currPos := text.currPos + 1 }
      (by simp [hlines]) (by simp [hpos]) (by simpa using hcount)
      (by simp at hfuel; omega) (fun s' hs' => hnul s' (by simp [hs']))
    simp only [readLines, nextTextLine, if_neg hlt, hget, hs, hih]
    simp [Nat.add_assoc, Nat.add_comm 1]

theorem lineStartsFrom_append (i : Nat) (l : List Nat) (x : Nat) :
    lineStartsFrom i (l ++ [x]) =
      lineStartsFrom i l ++ (if x = NUL then [i + l.length + 1] else []) := by
  induction l generalizing i with
  | nil => by_cases hx : x = NUL <;> simp [lineStartsFrom, hx]
  | cons b rest ih =>
    by_cases hb : b = NUL
    · simp [lineStartsFrom, hb, ih]; split <;> simp; omega
    · simp [lineStartsFrom, hb, ih]; split <;> simp; omega

theorem stringAt_length_append (pre : List Nat) (tail : List Nat) :
    stringAt (pre ++ tail) pre.length = tail.takeWhile (fun c => decide (c ≠ NUL)) := by
  simp [stringAt]

theorem splitOn_cons_NL (rest : List Nat) :
    (NL :: rest).splitOn NL = [] :: rest.splitOn NL := by
  simp [List.splitOn, List.splitOnP_cons]

theorem splitOn_cons_ne (b : Nat) (rest : List Nat) (hb : b ≠ NL) :
    (b :: rest).splitOn NL = (rest.splitOn NL).modifyHead (List.cons b) := by
  simp [List.splitOn, List.splitOnP_cons, hb]

/-- Reading the strings at all line starts of a fully scanned buffer gives the
segments of the content. -/
theorem strings_eq_splitOn :
    ∀ (content pre : List Nat), NUL ∉ content →
      (pre.length :: lineStartsFrom pre.length (content.map (replaceByte NL NUL))).map
          (stringAt (pre ++ (content.map (replaceByte NL NUL) ++ [NUL]))) =
        content.splitOn NL := by
  intro content
  induction content with
  | nil =>
    intro pre _
    simp [lineStartsFrom, stringAt_length_append, List.splitOn_nil]
  | cons b rest ih =>
    intro pre hnul
    have hb : b ≠ NUL := fun h => hnul (by simp [h])
    have hrest : NUL ∉ rest := fun h => hnul (by simp [h])
    by_cases h10 : b = NL
    · subst h10
      have hih := ih (pre ++ [NUL]) hrest
      simp only [List.length_append, List.length_singleton, List.append_assoc,
        List.singleton_append] at hih
      have hrep : replaceByte NL NUL NL = NUL := by simp [replaceByte]
      simp only [List.map_cons, hrep, lineStartsFrom, if_true, splitOn_cons_NL, ← hih,
        List.cons_append, stringAt_length_append]
      simp
    · have hih := ih (pre ++ [b]) hrest
      simp only [List.length_append, List.length_singleton, List.append_assoc,
        List.singleton_append] at hih
      have hrep : replaceByte NL NUL b = b := by simp [replaceByte, h10]
      simp only [List.map_cons, hrep, lineStartsFrom, if_neg hb, splitOn_cons_ne b rest h10,
        ← hih, List.cons_append, stringAt_length_append]
      have : stringAt (pre ++ b :: (List.map (replaceByte NL NUL) rest ++ [NUL])) (pre.length + 1)
          = (List.map (replaceByte NL NUL) rest ++ [NUL]).takeWhile (fun c => decide (c ≠ NUL)) := by
        have := stringAt_length_append (pre ++ [b]) (List.map (replaceByte NL NUL) rest ++ [NUL])
        simpa using this
      simp [List.modifyHead, this, hb]

theorem lineStartsFrom_bound (i : Nat) (scan : List Nat) :
    ∀ s ∈ lineStartsFrom i scan, i < s ∧ s ≤ i + scan.length := by
  induction scan generalizing i with
  | nil => intro s hs; simp [lineStartsFrom] at hs
  | cons b rest ih =>
    intro s hs
    by_cases hb : b = NUL
    · simp only [lineStartsFrom, hb, if_true, List.mem_cons] at hs
      rcases hs with hs | hs
      · subst hs; simp
      · have := ih (i + 1) s hs
        simp only [List.length_cons]; omega
    · simp only [lineStartsFrom, hb, if_false] at hs
      have := ih (i + 1) s hs
      simp only [List.length_cons]; omega

theorem recordedStarts_bound (buffer : List Nat) (bytesCount : Nat) :
    ∀ s ∈ recordedStarts buffer bytesCount, 0 < s ∧ s ≤ bytesCount - 1 := by
  intro s hs
  have := lineStartsFrom_bound 0 _ s hs
  rw [List.length_take] at this
  omega

theorem NUL_mem_drop_sentinel (body : List Nat) (s : Nat) (hs : s ≤ body.length) :
    NUL ∈ (body ++ [NUL]).drop s := by
  rw [List.drop_append_of_le_length hs]
  simp

theorem loaded_recordedStarts (body : List Nat) (x : Nat) :
    recordedStarts (loadedBuffer (body ++ [x])) (body ++ [x]).length =
      lineStartsFrom 0 (body.map (replaceByte NL NUL)) := by
  simp only [recordedStarts, loadedBuffer, List.length_append, List.length_singleton,
    Nat.add_sub_cancel, List.map_append, List.append_assoc]
  rw [List.take_append_of_le_length (by simp)]
  rw [List.take_of_length_le (by simp)]

theorem loaded_strings (content : List Nat) (hne : content ≠ []) (hnul : NUL ∉ content) :
    (0 :: recordedStarts (loadedBuffer content) content.length).map
        (stringAt (loadedBuffer content)) = expectedLines content := by
  rcases List.eq_nil_or_concat content with h | ⟨body, x, h⟩
  · exact absurd h hne
  · rw [List.concat_eq_append] at h
    subst h
    have hfull := strings_eq_splitOn (body ++ [x]) [] hnul
    simp only [List.length_nil, List.nil_append] at hfull
    have hx : x ≠ NUL := fun h => hnul (by simp [h])
    rw [loaded_recordedStarts, expectedLines, List.getLast?_concat]
    rw [List.map_append] at hfull
    simp only [List.map_cons, List.map_nil] at hfull
    rw [lineStartsFrom_append] at hfull
    by_cases h10 : x = NL
    · subst h10
      have hrep : replaceByte NL NUL NL = NUL := by simp [replaceByte]
      simp only [List.map_cons, List.map_nil, hrep, if_true] at hfull
      rw [if_pos rfl, ← hfull]
      simp only [loadedBuffer, List.map_append, List.map_cons, List.map_nil, hrep]
      rw [← List.cons_append, List.dropLast_concat]
    · have hrep : replaceByte NL NUL x = x := by simp [replaceByte, h10]
      simp only [List.map_cons, List.map_nil, hrep, if_neg hx, List.append_nil] at hfull
      rw [if_neg (by simpa using h10), ← hfull]
      simp only [loadedBuffer, List.map_append, List.map_cons, List.map_nil, hrep]

/-! ### The string functions and the loop of `makeTextCaseHomogeneous` -/

theorem upperByte_caseMap : CaseMap upperByte where
  idem := by intro c; unfold upperByte; split_ifs <;> omega
  zero_iff := by intro c; unfold upperByte NUL; split_ifs <;> omega

theorem lowerByte_caseMap : CaseMap lowerByte where
  idem := by intro c; unfold lowerByte; split_ifs <;> omega
  zero_iff := by intro c; unfold lowerByte NUL; split_ifs <;> omega

theorem strWalk_spec (f : Nat → Nat) :
    ∀ l : List Nat, NUL ∈ l →
      ∃ l' moved, strWalk f l = .ok (l', moved) ∧ l'.length = l.length ∧
        (∀ i : Nat, l'[i]? = l[i]? ∨ l'[i]? = (l[i]?).map f) ∧
        (∀ i : Nat, (∀ j : Nat, j ≤ i → l[j]? ≠ some NUL) → l'[i]? = (l[i]?).map f) := by
  intro l
  induction l with
  | nil => intro h; simp at h
  | cons c rest ih =>
    intro h
    by_cases hc : c = NUL
    · refine ⟨c :: rest, 0, by simp [strWalk, hc], rfl, fun i => Or.inl rfl, ?_⟩
      intro i hi
      exact absurd (by simp [hc]) (hi 0 (Nat.zero_le i))
    · have hrest : NUL ∈ rest := by
        rcases List.mem_cons.mp h with h | h
        · exact absurd h.symm hc
        · exact h
      obtain ⟨rest', moved, hw, hlen, hpart, hdone⟩ := ih hrest
      refine ⟨f c :: rest', moved + 1, by simp [strWalk, hc, hw], by simp [hlen], ?_, ?_⟩
      · intro i
        cases i with
        | zero => right; simp
        | succ i => simpa using hpart i
      · intro i hi
        cases i with
        | zero => simp
        | succ i =>
          have := hdone i (fun j hj => by simpa using hi (j + 1) (by omega))
          simpa using this

theorem strAt_spec (f : Nat → Nat) (cur : List Nat) (s : Nat) (h : NUL ∈ cur.drop s) :
    ∃ cur' ret, strAt f cur s = .ok (cur', ret) ∧ cur'.length = cur.length ∧
      (∀ i : Nat, cur'[i]? = cur[i]? ∨ cur'[i]? = (cur[i]?).map f) ∧
      (∀ i : Nat, s ≤ i → (∀ j : Nat, s ≤ j → j ≤ i → cur[j]? ≠ some NUL) →
        cur'[i]? = (cur[i]?).map f) := by
  obtain ⟨l', moved, hw, hlen, hpart, hdone⟩ := strWalk_spec f (cur.drop s) h
  have hs : s ≤ cur.length := by
    by_contra hcon
    rw [List.drop_of_length_le (by omega)] at h
    simp at h
  have htake : (cur.take s).length = s := by rw [List.length_take]; omega
  have hget : ∀ i, (cur.take s ++ l')[i]? = if i < s then cur[i]? else l'[i - s]? := by
    intro i
    by_cases hi : i < s
    · rw [if_pos hi, List.getElem?_append_left (by omega), List.getElem?_take_of_lt hi]
    · rw [if_neg hi, List.getElem?_append_right (by omega), htake]
  have hdrop : ∀ i, s ≤ i → (cur.drop s)[i - s]? = cur[i]? := by
    intro i hi
    rw [List.getElem?_drop]
    congr 1; omega
  refine ⟨cur.take s ++ l', s + moved, by simp [strAt, hw], ?_, ?_, ?_⟩
  · rw [List.length_append, htake, hlen, List.length_drop]; omega
  · intro i
    rw [hget]
    by_cases hi : i < s
    · left; rw [if_pos hi]
    · rw [if_neg hi, ← hdrop i (by omega)]
      exact hpart (i - s)
  · intro i hi hnz
    rw [hget, if_neg (by omega), ← hdrop i hi]
    apply hdone
    intro j hj
    have := hdrop (s + j) (by omega)
    rw [Nat.add_sub_cancel_left] at this
    rw [this]
    exact hnz (s + j) (by omega) (by omega)

theorem caseByte_caseMap (isToUpper : Bool) : CaseMap (caseByte isToUpper) := by
  cases isToUpper
  · exact lowerByte_caseMap
  · exact upperByte_caseMap

theorem caseLoop_select (isToUpper : Bool) (buffer : List Nat) (str : Nat) :
    (if isToUpper then strToUpper buffer str else strToLower buffer str) =
      strAt (caseByte isToUpper) buffer str := by
  cases isToUpper <;> rfl

theorem map_map_caseMap {f : Nat → Nat} (hf : CaseMap f) (a : Option Nat) :
    (a.map f).map f = a.map f := by
  cases a <;> simp [hf.idem]

theorem map_eq_NUL_iff {f : Nat → Nat} (hf : CaseMap f) (a : Option Nat) :
    a.map f = some NUL ↔ a = some NUL := by
  cases a <;> simp [hf.zero_iff]

theorem part_trans {f : Nat → Nat} (hf : CaseMap f) {a b c : Option Nat}
    (hab : Part f a b) (hbc : Part f b c) : Part f a c := by
  rcases hab with rfl | rfl
  · exact hbc
  · rcases hbc with rfl | rfl
    · exact Or.inr rfl
    · exact Or.inr (map_map_caseMap hf a)

theorem part_zero_iff {f : Nat → Nat} (hf : CaseMap f) {a b : Option Nat}
    (hab : Part f a b) : b = some NUL ↔ a = some NUL := by
  rcases hab with rfl | rfl
  · exact Iff.rfl
  · exact map_eq_NUL_iff hf a

theorem part_keep {f : Nat → Nat} (hf : CaseMap f) {a b c : Option Nat}
    (hb : b = a.map f) (hbc : Part f b c) : c = a.map f := by
  rcases hbc with rfl | rfl
  · exact hb
  · rw [hb, map_map_caseMap hf]

theorem NUL_mem_drop_of_getElem? (l : List Nat) (s n : Nat) (hs : s ≤ n)
    (hn : l[n]? = some NUL) : NUL ∈ l.drop s := by
  rw [List.mem_iff_getElem?]
  refine ⟨n - s, ?_⟩
  rw [List.getElem?_drop, ← hn]
  congr 1; omega

theorem caseLoop_spec (isToUpper : Bool) (orig : List Nat) (n : Nat)
    (hsent : orig[n]? = some NUL) :
    ∀ (rest : List Nat) (done : List (Option Nat)) (pad fuel : Nat) (text : Text),
      text.lines = done ++ rest.map some ++ List.replicate pad none →
      text.currPos = done.length →
      text.linesCount = text.lines.length →
      rest.length < fuel →
      (∀ s ∈ rest, s ≤ n) →
      text.buffer.length = orig.length →
      (∀ i : Nat, Part (caseByte isToUpper) orig[i]? text.buffer[i]?) →
      ∃ final, caseLoop isToUpper fuel text =
          .ok { text with buffer := final,
                          currPos := done.length + rest.length + min pad 1 } ∧
        final.length = orig.length ∧
        (∀ i : Nat, Part (caseByte isToUpper) text.buffer[i]? final[i]?) ∧
        (∀ s ∈ rest, ∀ i : Nat, s ≤ i → (∀ j : Nat, s ≤ j → j ≤ i → orig[j]? ≠ some NUL) →
          final[i]? = (orig[i]?).map (caseByte isToUpper)) := by
  have hf := caseByte_caseMap isToUpper
  intro rest
  induction rest with
  | nil =>
    intro done pad fuel text hlines hpos hcount hfuel _ hlen _
    obtain ⟨fuel, rfl⟩ : ∃ f, fuel = f + 1 := ⟨fuel - 1, by simp at hfuel; omega⟩
    simp only [List.map_nil, List.append_nil] at hlines
    have hlc : text.linesCount = done.length + pad := by
      rw [hcount, hlines]; simp
    refine ⟨text.buffer, ?_, hlen, fun i => Or.inl rfl, by simp⟩
    cases pad with
    | zero =>
      have : text.currPos ≥ text.linesCount := by omega
      simp only [caseLoop, nextTextLine, if_pos this]
      simp [← hpos]
    | succ pad =>
      have hlt : ¬ text.currPos ≥ text.linesCount := by omega
      have hget : text.lines[text.currPos]? = some none := by
        rw [hlines, hpos, List.replicate_succ]
        exact getElem?_length_append _ _ _
      simp only [caseLoop, nextTextLine, if_neg hlt, hget]
      simp [← hpos]
  | cons s rest ih =>
    intro done pad fuel text hlines hpos hcount hfuel hle hlen hpart
    obtain ⟨fuel, rfl⟩ : ∃ f, fuel = f + 1 := ⟨fuel - 1, by simp at hfuel; omega⟩
    have hlc : text.linesCount = done.length + (rest.length + 1) + pad := by
      rw [hcount, hlines]; simp; omega
    have hlt : ¬ text.currPos ≥ text.linesCount := by omega
    have hget : text.lines[text.currPos]? = some (some s) := by
      rw [hlines, hpos, List.map_cons, List.append_assoc, List.cons_append]
      exact getElem?_length_append _ _ _
    have hcursent : text.buffer[n]? = some NUL := (part_zero_iff hf (hpart n)).mpr hsent
    obtain ⟨cur', ret, hstr, hlen', hpart', hdone'⟩ :=
      strAt_spec (caseByte isToUpper) text.buffer s
        (NUL_mem_drop_of_getElem? _ s n (hle s (by simp)) hcursent)
    obtain ⟨final, hloop, hflen, hfpart, hfdone⟩ :=
      ih (done ++ [some s]) pad fuel
        { text with currPos := text.currPos + 1, buffer := cur' }
        (by simp [hlines]) (by simp [hpos]) (by simpa using hcount)
        (by simp at hfuel; omega) (fun s' hs' => hle s' (by simp [hs']))
        (by simpa [hlen'] using hlen)
        (fun i => part_trans hf (hpart i) (hpart' i))
    refine ⟨final, ?_, hflen, fun i => part_trans hf (hpart' i) (hfpart i), ?_⟩
    · simp only [caseLoop, nextTextLine, if_neg hlt, hget, caseLoop_select, hstr, hloop]
      simp [Nat.add_assoc, Nat.add_comm 1]
    · intro s' hs' i hi hnz
      rcases List.mem_cons.mp hs' with rfl | hs'
      · have hcur : cur'[i]? = (text.buffer[i]?).map (caseByte isToUpper) :=
          hdone' i hi (fun j h1 h2 hj =>
            hnz j h1 h2 ((part_zero_iff hf (hpart j)).mp hj))
        have hcur' : cur'[i]? = (orig[i]?).map (caseByte isToUpper) := by
          rcases hpart i with h | h
          · rw [hcur, h]
          · rw [hcur, h, map_map_caseMap hf]
        exact part_keep hf hcur' (hfpart i)
      · exact hfdone s' hs' i hi hnz

/-! ### When the line-start loop leaves the `lines` array -/

theorem recordLineStarts_fault :
    ∀ (scan pre post : List Nat) (done : List (Option Nat)) (free : Nat),
      free < (lineStartsFrom pre.length scan).length →
      recordLineStarts (pre ++ scan ++ post) scan.length pre.length
          (done ++ List.replicate free none) done.length = .fault .outOfBounds := by
  intro scan
  induction scan with
  | nil =>
    intro pre post done free h
    simp [lineStartsFrom] at h
  | cons b rest ih =>
    intro pre post done free hfree
    have hget : (pre ++ b :: rest ++ post)[pre.length]? = some b := by
      simpa using getElem?_length_append pre b (rest ++ post)
    simp only [List.length_cons, recordLineStarts, hget]
    by_cases hb : b = NUL
    · simp only [lineStartsFrom, hb, if_true, List.length_cons] at hfree ⊢
      cases free with
      | zero => simp
      | succ free' =>
        have hlt : done.length < (done ++ List.replicate (free' + 1) none).length := by
          simp
        rw [if_pos hlt, List.replicate_succ, set_length_append]
        have := ih (pre ++ [NUL]) post (done ++ [some (pre.length + 1)]) free'
          (by simpa using hfree)
        simp only [List.length_append, List.length_singleton, List.append_assoc,
          List.singleton_append] at this
        subst hb
        simp only [List.append_assoc, List.cons_append] at this ⊢
        rw [this]
    · simp only [lineStartsFrom, hb, if_false] at hfree ⊢
      have := ih (pre ++ [b]) post done free (by simpa using hfree)
      simp only [List.length_append, List.length_singleton, List.append_assoc,
        List.singleton_append] at this
      simp only [List.append_assoc, List.cons_append] at this ⊢
      rw [this]

theorem splitLines_fault (buffer : List Nat) (bytesCount linesCount : Nat)
    (hn : 0 < bytesCount) (hlen : bytesCount ≤ buffer.length + 1)
    (hroom : linesCount < (recordedStarts buffer bytesCount).length + 1) :
    splitLines buffer bytesCount linesCount = .fault .outOfBounds := by
  cases linesCount with
  | zero => simp [splitLines]
  | succ free =>
    have hscan : (buffer.take (bytesCount - 1)).length = bytesCount - 1 := by
      rw [List.length_take]; omega
    have h := recordLineStarts_fault (buffer.take (bytesCount - 1)) []
      (buffer.drop (bytesCount - 1)) [some 0] free (by simpa [recordedStarts] using hroom)
    simp only [List.nil_append, List.take_append_drop, hscan, List.length_nil,
      List.length_singleton, List.singleton_append] at h
    simp only [splitLines, List.length_replicate, Nat.succ_pos, if_true, sizePred_pos hn,
      List.replicate_succ, List.set_cons_zero]
    rw [h]
    simp

theorem splitLines_inv (buffer : List Nat) (bytesCount linesCount : Nat)
    (lines : List (Option Nat))
    (hn : 0 < bytesCount) (hlen : bytesCount ≤ buffer.length + 1)
    (h : splitLines buffer bytesCount linesCount = .ok lines) :
    (recordedStarts buffer bytesCount).length + 1 ≤ linesCount ∧
      lines = some 0 :: (recordedStarts buffer bytesCount).map some ++
        List.replicate (linesCount - 1 - (recordedStarts buffer bytesCount).length) none := by
  by_cases hroom : (recordedStarts buffer bytesCount).length + 1 ≤ linesCount
  · rw [splitLines_ok buffer bytesCount linesCount hn hlen hroom] at h
    exact ⟨hroom, (Run.ok.inj h).symm⟩
  · rw [splitLines_fault buffer bytesCount linesCount hn hlen (by omega)] at h
    cases h

theorem lineStartsFrom_mem (scan : List Nat) :
    ∀ (o k : Nat), scan[k]? = some NUL → o + k + 1 ∈ lineStartsFrom o scan := by
  induction scan with
  | nil => intro o k h; simp at h
  | cons b rest ih =>
    intro o k h
    cases k with
    | zero =>
      have hb : b = NUL := by simpa using h
      simp [lineStartsFrom, hb]
    | succ k =>
      have hk : rest[k]? = some NUL := by simpa using h
      have := ih (o + 1) k hk
      have heq : o + 1 + k + 1 = o + (k + 1) + 1 := by omega
      rw [heq] at this
      by_cases hb : b = NUL
      · simp only [lineStartsFrom, hb, if_true]
        exact List.mem_cons_of_mem _ this
      · simpa only [lineStartsFrom, hb, if_false] using this

theorem covered_recorded (buffer : List Nat) (bytesCount : Nat) :
    ∀ i : Nat, i < bytesCount →
      ∃ s ∈ 0 :: recordedStarts buffer bytesCount, s ≤ i ∧
        ∀ j : Nat, s ≤ j → j < i → buffer[j]? ≠ some NUL := by
  intro i
  induction i with
  | zero => intro _; exact ⟨0, by simp, Nat.le_refl 0, fun j _ hj => absurd hj (by omega)⟩
  | succ i ih =>
    intro hi
    by_cases hz : buffer[i]? = some NUL
    · refine ⟨i + 1, List.mem_cons_of_mem _ ?_, Nat.le_refl _, fun j h1 h2 => absurd h2 (by omega)⟩
      have := lineStartsFrom_mem (buffer.take (bytesCount - 1)) 0 i
        (by rw [List.getElem?_take_of_lt (by omega)]; exact hz)
      simpa [recordedStarts] using this
    · obtain ⟨s, hs, hle, hnz⟩ := ih (by omega)
      refine ⟨s, hs, by omega, fun j h1 h2 => ?_⟩
      by_cases hj : j = i
      · subst hj; exact hz
      · exact hnz j h1 (by omega)

/-! ### `makeTextCaseHomogeneous` on a valid Text -/

theorem homogenise_ok (isToUpper : Bool) (text : Text) (starts : List Nat) (pad : Nat)
    (hv : Valid text starts pad) :
    homogenise isToUpper text =
      .ok (true, { text with buffer := text.buffer.map (caseByte isToUpper) }) := by
  have hf := caseByte_caseMap isToUpper
  obtain ⟨final, hloop, hflen, hfpart, hfdone⟩ :=
    caseLoop_spec isToUpper text.buffer text.bytesCount hv.sentinel (0 :: starts) [] pad
      (text.linesCount + 1) { text with currPos := 0 }
      (by simpa using hv.lines_eq) rfl hv.linesCount_eq
      (by have := hv.linesCount_eq; rw [hv.lines_eq] at this; simp at this ⊢; omega)
      (by
        intro s hs
        rcases List.mem_cons.mp hs with rfl | hs
        · exact Nat.zero_le _
        · exact hv.starts_le s hs)
      rfl (fun i => Or.inl rfl)
  have hall : final = text.buffer.map (caseByte isToUpper) := by
    apply List.ext_getElem?
    intro i
    rw [List.getElem?_map]
    by_cases hz : text.buffer[i]? = some NUL
    · have := (part_zero_iff hf (hfpart i)).mpr hz
      rw [this, hz]
      simp [(hf.zero_iff NUL).mpr rfl]
    · by_cases hi : i < text.bytesCount
      · obtain ⟨s, hs, hle, hnz⟩ := hv.covered i hi
        apply hfdone s hs i hle
        intro j h1 h2
        by_cases hj : j = i
        · subst hj; exact hz
        · exact hnz j h1 (by omega)
      · have hge : text.buffer.length ≤ i := by
          rw [hv.buffer_length]
          by_contra hcon
          have : i = text.bytesCount := by omega
          subst this
          exact hz hv.sentinel
        rw [List.getElem?_eq_none hge, List.getElem?_eq_none (by omega)]
        rfl
  simp only [homogenise, hloop, hall]

theorem makeTextCaseHomogeneous_ok (text : Text) (starts : List Nat) (pad : Nat)
    (hv : Valid text starts pad) (flag : String) :
    makeTextCaseHomogeneous text flag =
      if flag = TEXT_CASE_FORMAT_UPPER then
        .ok (true, { text with buffer := text.buffer.map upperByte })
      else if flag = TEXT_CASE_FORMAT_LOWER then
        .ok (true, { text with buffer := text.buffer.map lowerByte })
      else .ok (false, text) := by
  unfold makeTextCaseHomogeneous
  rw [homogenise_ok true text starts pad hv, homogenise_ok false text starts pad hv]
  rfl

/-! ### Every operation keeps the representation invariant -/

theorem valid_with_currPos {text : Text} {starts : List Nat} {pad : Nat}
    (hv : Valid text starts pad) (c : Nat) (hc : c ≤ text.linesCount) :
    Valid { text with currPos := c } starts pad :=
  { bytes_pos := hv.bytes_pos
    buffer_length := hv.buffer_length
    sentinel := hv.sentinel
    lines_eq := hv.lines_eq
    linesCount_eq := hv.linesCount_eq
    cursor_le := hc
    starts_le := hv.starts_le
    covered := hv.covered }

theorem valid_with_buffer {text : Text} {starts : List Nat} {pad : Nat}
    (hv : Valid text starts pad) (buffer : List Nat)
    (hlen : buffer.length = text.buffer.length)
    (hsent : buffer[text.bytesCount]? = some NUL)
    (hzero : ∀ j : Nat, j < text.bytesCount → buffer[j]? = some NUL →
      text.buffer[j]? = some NUL) :
    Valid { text with buffer := buffer } starts pad :=
  { bytes_pos := hv.bytes_pos
    buffer_length := hlen.trans hv.buffer_length
    sentinel := hsent
    lines_eq := hv.lines_eq
    linesCount_eq := hv.linesCount_eq
    cursor_le := hv.cursor_le
    starts_le := hv.starts_le
    covered := by
      intro i hi
      have hi' : i < text.bytesCount := hi
      obtain ⟨s, hs, hle, hnz⟩ := hv.covered i hi'
      exact ⟨s, hs, hle, fun j h1 h2 hj => hnz j h1 h2 (hzero j (by omega) hj)⟩ }

theorem valid_of_split (buffer : List Nat) (bytesCount linesCount : Nat)
    (lines : List (Option Nat)) (hn : 0 < bytesCount)
    (hlen : buffer.length = bytesCount + 1) (hsent : buffer[bytesCount]? = some NUL)
    (h : splitLines buffer bytesCount linesCount = .ok lines) :
    Valid { bytesCount := bytesCount, buffer := buffer, lines := lines, currPos := 0,
            linesCount := linesCount }
      (recordedStarts buffer bytesCount)
      (linesCount - 1 - (recordedStarts buffer bytesCount).length) := by
  obtain ⟨hroom, hlines⟩ := splitLines_inv buffer bytesCount linesCount lines hn (by omega) h
  exact
    { bytes_pos := hn
      buffer_length := hlen
      sentinel := hsent
      lines_eq := by simpa using hlines
      linesCount_eq := by
        show linesCount = lines.length
        rw [hlines]; simp; omega
      cursor_le := Nat.zero_le _
      starts_le := fun s hs => by
        have := recordedStarts_bound buffer bytesCount s hs
        show s ≤ bytesCount
        omega
      covered := covered_recorded buffer bytesCount }

theorem loadedBuffer_sentinel (content : List Nat) :
    (loadedBuffer content)[content.length]? = some NUL := by
  simp [loadedBuffer]

theorem readTextFromFile_inv (file : Option (List Nat)) (text : Text)
    (h : readTextFromFile file = .ok (some text)) :
    ∃ content, file = some content ∧ content ≠ [] ∧
      text = { bytesCount := content.length, buffer := loadedBuffer content,
               lines := text.lines, currPos := 0, linesCount := content.count NL + 1 } ∧
      splitLines (loadedBuffer content) content.length (content.count NL + 1) =
        .ok text.lines := by
  cases file with
  | none => simp [readTextFromFile] at h
  | some content =>
    refine ⟨content, rfl, ?_⟩
    by_cases hne : content = []
    · subst hne; simp [readTextFromFile] at h
    · have hpos : ¬ content.length = 0 := fun h0 => hne (List.length_eq_zero.mp h0)
      simp only [readTextFromFile, loadedBuffer_replace, if_neg hpos] at h
      cases hs : splitLines (loadedBuffer content) content.length (content.count NL + 1) with
      | fault e => rw [hs] at h; cases h
      | ok lines =>
        rw [hs] at h
        have := Option.some.inj (Run.ok.inj h)
        subst this
        exact ⟨hne, rfl, rfl⟩

theorem valid_read (file : Option (List Nat)) (text : Text)
    (h : readTextFromFile file = .ok (some text)) :
    ∃ pad, Valid text (recordedStarts text.buffer text.bytesCount) pad := by
  obtain ⟨content, _, hne, htext, hsplit⟩ := readTextFromFile_inv file text h
  have hv := valid_of_split (loadedBuffer content) content.length (content.count NL + 1)
    text.lines (List.length_pos.mpr hne) (by simp [loadedBuffer])
    (loadedBuffer_sentinel content) hsplit
  rw [← htext] at hv
  have hb : text.buffer = loadedBuffer content := by rw [htext]
  have hn : text.bytesCount = content.length := by rw [htext]
  rw [hb, hn]
  exact ⟨_, hv⟩

theorem nextTextLine_inv (text text' : Text) (line : Option Nat)
    (h : nextTextLine text = .ok (line, text')) :
    (text.linesCount ≤ text.currPos ∧ line = none ∧ text' = text) ∨
      (text.currPos < text.linesCount ∧ text.lines[text.currPos]? = some line ∧
        text' = { text with currPos := text.currPos + 1 }) := by
  unfold nextTextLine at h
  by_cases hc : text.currPos ≥ text.linesCount
  · rw [if_pos hc] at h
    have := Run.ok.inj h
    simp only [Prod.mk.injEq] at this
    exact Or.inl ⟨hc, this.1.symm, this.2.symm⟩
  · rw [if_neg hc] at h
    cases hl : text.lines[text.currPos]? with
    | none => rw [hl] at h; cases h
    | some l =>
      rw [hl] at h
      have := Run.ok.inj h
      simp only [Prod.mk.injEq] at this
      exact Or.inr ⟨by omega, by rw [this.1], this.2.symm⟩

theorem valid_next {text text' : Text} {starts : List Nat} {pad : Nat} {line : Option Nat}
    (hv : Valid text starts pad) (h : nextTextLine text = .ok (line, text')) :
    Valid text' starts pad := by
  rcases nextTextLine_inv text text' line h with ⟨_, _, rfl⟩ | ⟨hlt, _, rfl⟩
  · exact hv
  · exact valid_with_currPos hv _ hlt

theorem valid_reset {text : Text} {starts : List Nat} {pad : Nat}
    (hv : Valid text starts pad) : Valid (resetTextToStart text) starts pad :=
  valid_with_currPos hv 0 (Nat.zero_le _)

theorem valid_map {text : Text} {starts : List Nat} {pad : Nat}
    (hv : Valid text starts pad) {f : Nat → Nat} (hf : CaseMap f) :
    Valid { text with buffer := text.buffer.map f } starts pad := by
  apply valid_with_buffer hv
  · simp
  · rw [List.getElem?_map, hv.sentinel]
    simp [(hf.zero_iff NUL).mpr rfl]
  · intro j _ hj
    rw [List.getElem?_map] at hj
    exact (map_eq_NUL_iff hf _).mp hj

theorem makeTextCaseHomogeneous_inv {text text' : Text} {starts : List Nat} {pad : Nat}
    {flag : String} {ret : Bool}
    (hv : Valid text starts pad) (h : makeTextCaseHomogeneous text flag = .ok (ret, text')) :
    text' = text ∨ ∃ f, CaseMap f ∧ text' = { text with buffer := text.buffer.map f } := by
  rw [makeTextCaseHomogeneous_ok text starts pad hv flag] at h
  split_ifs at h
  · exact Or.inr ⟨upperByte, upperByte_caseMap, (Prod.mk.inj (Run.ok.inj h)).2.symm⟩
  · exact Or.inr ⟨lowerByte, lowerByte_caseMap, (Prod.mk.inj (Run.ok.inj h)).2.symm⟩
  · exact Or.inl (Prod.mk.inj (Run.ok.inj h)).2.symm

theorem valid_homogeneous {text text' : Text} {starts : List Nat} {pad : Nat}
    {flag : String} {ret : Bool}
    (hv : Valid text starts pad) (h : makeTextCaseHomogeneous text flag = .ok (ret, text')) :
    Valid text' starts pad := by
  rcases makeTextCaseHomogeneous_inv hv h with rfl | ⟨f, hf, rfl⟩
  · exact hv
  · exact valid_map hv hf

theorem take_append_sentinel (l : List Nat) (n x : Nat) (hlen : l.length = n + 1)
    (hx : l[n]? = some x) : l.take n ++ [x] = l := by
  have hd : (l.drop n).length = 1 := by rw [List.length_drop]; omega
  obtain ⟨y, hy⟩ := List.length_eq_one.mp hd
  have hget : (l.drop n)[0]? = l[n]? := by rw [List.getElem?_drop]; rfl
  rw [hy, hx] at hget
  have hyx : y = x := by simpa using hget
  subst hyx
  rw [← hy, List.take_append_drop]

theorem writeTextToFile_eq (file : List Nat) (text : Text)
    (hlen : text.bytesCount ≤ text.buffer.length) :
    writeTextToFile file text =
      .ok (true, file ++ (text.buffer.take text.bytesCount).map (replaceByte NUL NL),
        { text with buffer := (text.buffer.take text.bytesCount).map (replaceByte NUL NL) ++
            text.buffer.drop text.bytesCount }) := by
  have htake : (text.buffer.take text.bytesCount).length = text.bytesCount := by
    rw [List.length_take]; omega
  have hlen' : ¬ ((text.buffer.take text.bytesCount).map (replaceByte NUL NL) ++
      text.buffer.drop text.bytesCount).length < text.bytesCount := by
    simp; omega
  have htake' : ((text.buffer.take text.bytesCount).map (replaceByte NUL NL) ++
      text.buffer.drop text.bytesCount).take text.bytesCount =
      (text.buffer.take text.bytesCount).map (replaceByte NUL NL) := by
    rw [List.take_append_of_le_length (by rw [List.length_map, htake])]
    exact List.take_of_length_le (by rw [List.length_map, htake])
  simp only [writeTextToFile, replaceAllOccurrences_eq NUL NL text.buffer text.bytesCount hlen,
    fwrite, if_neg hlen', htake']
  simp

theorem valid_write {text text' : Text} {starts : List Nat} {pad : Nat}
    {file file' : List Nat} {ret : Bool}
    (hv : Valid text starts pad) (h : writeTextToFile file text = .ok (ret, file', text')) :
    Valid text' starts pad := by
  have hle : text.bytesCount ≤ text.buffer.length := by rw [hv.buffer_length]; omega
  rw [writeTextToFile_eq file text hle] at h
  have htake : (text.buffer.take text.bytesCount).length = text.bytesCount := by
    rw [List.length_take]; omega
  have := (Prod.mk.inj (Prod.mk.inj (Run.ok.inj h)).2).2
  subst this
  apply valid_with_buffer hv
  · rw [List.length_append, List.length_map, htake, List.length_drop]; omega
  · rw [List.getElem?_append_right (by rw [List.length_map, htake]), List.length_map, htake,
      Nat.sub_self, List.getElem?_drop]
    simpa using hv.sentinel
  · intro j hj hz
    rw [List.getElem?_append_left (by rw [List.length_map, htake]; exact hj),
      List.getElem?_map] at hz
    cases hb : (text.buffer.take text.bytesCount)[j]? with
    | none => rw [hb] at hz; cases hz
    | some b =>
      rw [hb] at hz
      have : replaceByte NUL NL b = NUL := by simpa using hz
      unfold replaceByte at this
      split_ifs at this with h0
      · exact absurd this (by decide)
      · exact absurd this h0

theorem copyText_inv {text text' copy : Text} {starts : List Nat} {pad : Nat}
    (hv : Valid text starts pad) (h : copyText text = .ok (copy, text')) :
    text' = text ∧
      copy = { bytesCount := text.bytesCount, buffer := text.buffer, lines := copy.lines,
               currPos := 0, linesCount := text.linesCount } ∧
      splitLines text.buffer text.bytesCount text.linesCount = .ok copy.lines := by
  have hle : ¬ text.buffer.length < text.bytesCount := by rw [hv.buffer_length]; omega
  have hbuf := take_append_sentinel text.buffer text.bytesCount NUL hv.buffer_length hv.sentinel
  simp only [copyText, if_neg hle, hbuf] at h
  cases hs : splitLines text.buffer text.bytesCount text.linesCount with
  | fault e => rw [hs] at h; cases h
  | ok lines =>
    rw [hs] at h
    have := Prod.mk.inj (Run.ok.inj h)
    obtain ⟨h1, h2⟩ := this
    subst h1 h2
    exact ⟨rfl, rfl, rfl⟩

theorem valid_copy {text text' copy : Text} {starts : List Nat} {pad : Nat}
    (hv : Valid text starts pad) (h : copyText text = .ok (copy, text')) :
    ∃ pad', Valid copy (recordedStarts copy.buffer copy.bytesCount) pad' := by
  obtain ⟨_, hcopy, hsplit⟩ := copyText_inv hv h
  have := valid_of_split text.buffer text.bytesCount text.linesCount copy.lines
    hv.bytes_pos hv.buffer_length hv.sentinel hsplit
  rw [← hcopy] at this
  have hb : copy.buffer = text.buffer := by rw [hcopy]
  have hn : copy.bytesCount = text.bytesCount := by rw [hcopy]
  rw [hb, hn]
  exact ⟨_, this⟩

theorem reachable_valid {text : Text} (h : Reachable text) :
    ∃ starts pad, Valid text starts pad := by
  induction h with
  | read file text h =>
    obtain ⟨pad, hv⟩ := valid_read _ _ h
    exact ⟨_, pad, hv⟩
  | next t t' line _ h ih =>
    obtain ⟨starts, pad, hv⟩ := ih
    exact ⟨starts, pad, valid_next hv h⟩
  | reset t _ ih =>
    obtain ⟨starts, pad, hv⟩ := ih
    exact ⟨starts, pad, valid_reset hv⟩
  | homogeneous t t' flag ret _ h ih =>
    obtain ⟨starts, pad, hv⟩ := ih
    exact ⟨starts, pad, valid_homogeneous hv h⟩
  | write t t' file file' ret _ h ih =>
    obtain ⟨starts, pad, hv⟩ := ih
    exact ⟨starts, pad, valid_write hv h⟩
  | copy t t' c _ h ih =>
    obtain ⟨starts, pad, hv⟩ := ih
    obtain ⟨pad', hv'⟩ := valid_copy hv h
    exact ⟨_, pad', hv'⟩

theorem lineStartsFrom_map {f : Nat → Nat} (hf : CaseMap f) (i : Nat) (scan : List Nat) :
    lineStartsFrom i (scan.map f) = lineStartsFrom i scan := by
  induction scan generalizing i with
  | nil => rfl
  | cons b rest ih =>
    by_cases hb : b = NUL
    · have : f b = NUL := (hf.zero_iff b).mpr hb
      simp [lineStartsFrom, hb, ih, (hf.zero_iff NUL).mpr rfl]
    · have : ¬ f b = NUL := fun h => hb ((hf.zero_iff b).mp h)
      simp [lineStartsFrom, hb, this, ih]

theorem recordedStarts_map {f : Nat → Nat} (hf : CaseMap f) (buffer : List Nat) (n : Nat) :
    recordedStarts (buffer.map f) n = recordedStarts buffer n := by
  rw [recordedStarts, ← List.map_take, lineStartsFrom_map hf]
  rfl

theorem loaded_valid {text : Text} (h : Loaded text) :
    ∃ pad, Valid text (recordedStarts text.buffer text.bytesCount) pad := by
  induction h with
  | read file text h => exact valid_read _ _ h
  | next t t' line _ h ih =>
    obtain ⟨pad, hv⟩ := ih
    rcases nextTextLine_inv _ _ _ h with ⟨_, _, rfl⟩ | ⟨hlt, _, rfl⟩
    · exact ⟨pad, hv⟩
    · exact ⟨pad, valid_with_currPos hv _ hlt⟩
  | reset t _ ih =>
    obtain ⟨pad, hv⟩ := ih
    exact ⟨pad, valid_reset hv⟩
  | homogeneous t t' flag ret _ h ih =>
    obtain ⟨pad, hv⟩ := ih
    rcases makeTextCaseHomogeneous_inv hv h with rfl | ⟨f, hf, rfl⟩
    · exact ⟨pad, hv⟩
    · refine ⟨pad, ?_⟩
      have := valid_map hv hf
      show Valid _ (recordedStarts (t.buffer.map f) t.bytesCount) pad
      rw [recordedStarts_map hf]
      exact this

theorem loaded_reachable {text : Text} (h : Loaded text) : Reachable text := by
  induction h with
  | read file text h => exact Reachable.read _ _ h
  | next t t' line _ h ih => exact Reachable.next _ _ _ ih h
  | reset t _ ih => exact Reachable.reset _ ih
  | homogeneous t t' flag ret _ h ih => exact Reachable.homogeneous _ _ _ _ ih h

/-! ### The claims -/

/-- The lines of "ab\ncd\n", of "ab\ncd" and of "a\n\n". -/
theorem expectedLines_examples :
    expectedLines [97, 98, 10, 99, 100, 10] = [[97, 98], [99, 100]] ∧
      expectedLines [97, 98, 10, 99, 100] = [[97, 98], [99, 100]] ∧
      expectedLines [97, 10, 10] = [[97], []] := by
  decide

/-- C1: for every non-empty content without a NUL byte, `readTextFromFile`
returns a text, and a full `nextTextLine` iteration over it (every line read as
a NUL-terminated string, stopping at the first `NULL`) yields exactly the
segments of the content between consecutive '\n' bytes, in order, without the
final empty segment when the content ends with '\n'. -/
theorem readTextFromFile_iteration (content : List Nat) (hne : content ≠ [])
    (hnul : NUL ∉ content) :
    ∃ text final, readTextFromFile (some content) = .ok (some text) ∧
      readLines (text.linesCount + 1) text = .ok (expectedLines content, final) := by
  have hroom := recordedStarts_room content hnul
  have h := readLines_ok (0 :: recordedStarts (loadedBuffer content) content.length) []
    (content.count NL - (recordedStarts (loadedBuffer content) content.length).length)
    ((loadedText content).linesCount + 1) (loadedText content)
    (by simp [loadedText]) rfl (by simp [loadedText]; omega)
    (by simp [loadedText]; omega)
    (by
      intro s hs
      have hs' : s ≤ content.length := by
        rcases List.mem_cons.mp hs with h | h
        · omega
        · have := recordedStarts_bound _ _ s h; omega
      exact NUL_mem_drop_sentinel _ s (by simpa using hs'))
  rw [show (loadedText content).buffer = loadedBuffer content from rfl,
    loaded_strings content hne hnul] at h
  exact ⟨_, _, readTextFromFile_ok content hne hroom, h⟩

theorem readTextFromFile_iteration_witness :
    ([97, 98, 10, 99, 100, 10] : List Nat) ≠ [] ∧ NUL ∉ ([97, 98, 10, 99, 100, 10] : List Nat) ∧
      ∃ text final, readTextFromFile (some [97, 98, 10, 99, 100, 10]) = .ok (some text) ∧
        readLines (text.linesCount + 1) text =
          .ok (expectedLines [97, 98, 10, 99, 100, 10], final) :=
  ⟨by decide, by decide, readTextFromFile_iteration _ (by decide) (by decide)⟩

/-- The content "\0a": it holds no '\n', so `linesCount` is 1 and `lines` is
allocated with one entry; the recording loop meets the NUL at index 0 and
stores a second line start behind the array. -/
theorem readTextFromFile_nul_overflow :
    ([0, 97] : List Nat) ≠ [] ∧ List.count NL [0, 97] + 1 = 1 ∧
      replaceAllOccurrences [0, 97, 0] 2 NL NUL = .ok ([0, 97, 0], 0) ∧
      splitLines [0, 97, 0] 2 1 = .fault .outOfBounds ∧
      readTextFromFile (some [0, 97]) = .fault .outOfBounds := by
  decide

/-- C3, refuted as stated: the content "a\0" holds no '\n', loads as one line
at offset 0, and that line read as a string is "a", not the full content. -/
theorem readTextFromFile_single_line_counterexample :
    ([97, 0] : List Nat) ≠ [] ∧ NL ∉ ([97, 0] : List Nat) ∧
      readTextFromFile (some [97, 0]) =
        .ok (some { bytesCount := 2, buffer := [97, 0, 0], lines := [some 0],
                    currPos := 0, linesCount := 1 }) ∧
      cString [97, 0, 0] 0 = .ok [97] ∧ ([97] : List Nat) ≠ [97, 0] := by
  decide

/-- C3, amended: for every non-empty content that holds neither a '\n' nor a
NUL byte, `readTextFromFile` yields exactly one line (`linesCount = 1`, the
`lines` array is the single offset 0) and that line, read as a NUL-terminated
string, is the full content. -/
theorem readTextFromFile_single_line (content : List Nat) (hne : content ≠ [])
    (hnl : NL ∉ content) (hnul : NUL ∉ content) :
    ∃ text, readTextFromFile (some content) = .ok (some text) ∧
      text.linesCount = 1 ∧ text.lines = [some 0] ∧
      cString text.buffer 0 = .ok content := by
  have hroom := recordedStarts_room content hnul
  have hcount : content.count NL = 0 := List.count_eq_zero.mpr hnl
  have hstarts : recordedStarts (loadedBuffer content) content.length = [] :=
    List.length_eq_zero.mp (by omega)
  have hmap : content.map (replaceByte NL NUL) = content := by
    conv_rhs => rw [← List.map_id content]
    apply List.map_congr_left
    intro b hb
    have : b ≠ NL := fun h => hnl (h ▸ hb)
    simp [replaceByte, this]
  refine ⟨loadedText content, readTextFromFile_ok content hne hroom, ?_, ?_, ?_⟩
  · simp [loadedText, hcount]
  · simp [loadedText, hcount, hstarts]
  · have hmem : NUL ∈ (loadedText content).buffer.drop 0 := by
      simp [loadedText, loadedBuffer]
    rw [cString_ok _ _ hmem]
    have : stringAt (loadedText content).buffer 0 = content := by
      simp only [stringAt, loadedText, loadedBuffer, hmap, List.drop_zero]
      rw [List.takeWhile_append_of_pos (by
        intro b hb
        have : b ≠ NUL := fun h => hnul (h ▸ hb)
        simpa using this)]
      simp
    rw [this]

theorem readTextFromFile_single_line_witness :
    ([97, 98, 99] : List Nat) ≠ [] ∧ NL ∉ ([97, 98, 99] : List Nat) ∧
      NUL ∉ ([97, 98, 99] : List Nat) ∧
      ∃ text, readTextFromFile (some [97, 98, 99]) = .ok (some text) ∧
        text.linesCount = 1 ∧ text.lines = [some 0] ∧
        cString text.buffer 0 = .ok [97, 98, 99] :=
  ⟨by decide, by decide, by decide,
    readTextFromFile_single_line _ (by decide) (by decide) (by decide)⟩

theorem upperByte_eq (c : Nat) : upperByte c = if 97 ≤ c ∧ c ≤ 122 then c - 32 else c := by
  unfold upperByte; split_ifs <;> omega

theorem lowerByte_eq (c : Nat) : lowerByte c = if 65 ≤ c ∧ c ≤ 90 then c + 32 else c := by
  unfold lowerByte; split_ifs <;> omega

/-- C4: for every Text the public operations can produce (every Text returned
by `readTextFromFile` among them), `makeTextCaseHomogeneous` with flag "u"
succeeds and leaves at every index of the buffer the upper-case map of the byte
that was there ('a'..'z' to 'A'..'Z', every other byte unchanged), and with
flag "l" the lower-case map ('A'..'Z' to 'a'..'z', every other byte unchanged). -/
theorem makeTextCaseHomogeneous_bytes (text : Text) (h : Reachable text) :
    (∃ text', makeTextCaseHomogeneous text TEXT_CASE_FORMAT_UPPER = .ok (true, text') ∧
      ∀ (i c : Nat), text.buffer[i]? = some c →
        text'.buffer[i]? = some (if 97 ≤ c ∧ c ≤ 122 then c - 32 else c)) ∧
    (∃ text', makeTextCaseHomogeneous text TEXT_CASE_FORMAT_LOWER = .ok (true, text') ∧
      ∀ (i c : Nat), text.buffer[i]? = some c →
        text'.buffer[i]? = some (if 65 ≤ c ∧ c ≤ 90 then c + 32 else c)) := by
  obtain ⟨starts, pad, hv⟩ := reachable_valid h
  constructor
  · refine ⟨_, by rw [makeTextCaseHomogeneous_ok text starts pad hv]; rfl, ?_⟩
    intro i c hc
    simp only [List.getElem?_map, hc, Option.map_some', upperByte_eq]
  · refine ⟨_, by rw [makeTextCaseHomogeneous_ok text starts pad hv]; rfl, ?_⟩
    intro i c hc
    simp only [List.getElem?_map, hc, Option.map_some', lowerByte_eq]

theorem makeTextCaseHomogeneous_bytes_witness :
    Reachable exampleText ∧
    (∃ text', makeTextCaseHomogeneous exampleText TEXT_CASE_FORMAT_UPPER = .ok (true, text') ∧
      ∀ (i c : Nat), exampleText.buffer[i]? = some c →
        text'.buffer[i]? = some (if 97 ≤ c ∧ c ≤ 122 then c - 32 else c)) ∧
    (∃ text', makeTextCaseHomogeneous exampleText TEXT_CASE_FORMAT_LOWER = .ok (true, text') ∧
      ∀ (i c : Nat), exampleText.buffer[i]? = some c →
        text'.buffer[i]? = some (if 65 ≤ c ∧ c ≤ 90 then c + 32 else c)) :=
  ⟨Reachable.read (some [97, 66, 10, 49, 100, 10]) exampleText (by rfl),
    makeTextCaseHomogeneous_bytes exampleText
      (Reachable.read (some [97, 66, 10, 49, 100, 10]) exampleText (by rfl))⟩

/-- C5: `makeTextCaseHomogeneous` returns `NULL` exactly when the flag is neither
"u" nor "l".  With such a flag it returns `NULL` on every Text and leaves every
field as it was; with "u" or "l" it returns the text, for every Text the public
operations can produce. -/
theorem makeTextCaseHomogeneous_fails_iff (text : Text) (flag : String) :
    ((flag ≠ TEXT_CASE_FORMAT_UPPER ∧ flag ≠ TEXT_CASE_FORMAT_LOWER) →
      makeTextCaseHomogeneous text flag = .ok (false, text)) ∧
    (Reachable text →
      ∃ ret text', makeTextCaseHomogeneous text flag = .ok (ret, text') ∧
        (ret = false ↔ (flag ≠ TEXT_CASE_FORMAT_UPPER ∧ flag ≠ TEXT_CASE_FORMAT_LOWER)) ∧
        (ret = false → text' = text)) := by
  constructor
  · rintro ⟨hu, hl⟩
    simp [makeTextCaseHomogeneous, hu, hl]
  · intro h
    obtain ⟨starts, pad, hv⟩ := reachable_valid h
    rw [makeTextCaseHomogeneous_ok text starts pad hv]
    by_cases hu : flag = TEXT_CASE_FORMAT_UPPER
    · exact ⟨true, _, by rw [if_pos hu], by simp [hu], by simp⟩
    · by_cases hl : flag = TEXT_CASE_FORMAT_LOWER
      · exact ⟨true, _, by rw [if_neg hu, if_pos hl], by simp [hl], by simp⟩
      · exact ⟨false, _, by rw [if_neg hu, if_neg hl], by simp [hu, hl], by simp⟩

theorem makeTextCaseHomogeneous_fails_iff_witness :
    (("x" : String) ≠ TEXT_CASE_FORMAT_UPPER ∧ ("x" : String) ≠ TEXT_CASE_FORMAT_LOWER) ∧
    makeTextCaseHomogeneous exampleText ("x" : String) = .ok (false, exampleText) ∧
    Reachable exampleText ∧
    ∃ ret text', makeTextCaseHomogeneous exampleText TEXT_CASE_FORMAT_LOWER = .ok (ret, text') ∧
      (ret = false ↔ (TEXT_CASE_FORMAT_LOWER ≠ TEXT_CASE_FORMAT_UPPER ∧
        TEXT_CASE_FORMAT_LOWER ≠ TEXT_CASE_FORMAT_LOWER)) ∧
      (ret = false → text' = exampleText) :=
  ⟨by decide, (makeTextCaseHomogeneous_fails_iff exampleText _).1 (by decide),
    Reachable.read (some [97, 66, 10, 49, 100, 10]) exampleText (by rfl),
    (makeTextCaseHomogeneous_fails_iff exampleText TEXT_CASE_FORMAT_LOWER).2
      (Reachable.read (some [97, 66, 10, 49, 100, 10]) exampleText (by rfl))⟩

/-- C6: for every Text the public operations can produce, whatever its cursor,
`makeTextCaseHomogeneous` with a recognised flag returns the text with
`currPos`, `lines`, `bytesCount` and `linesCount` as they were before the call. -/
theorem makeTextCaseHomogeneous_frame (text : Text) (h : Reachable text) (flag : String)
    (hflag : flag = TEXT_CASE_FORMAT_UPPER ∨ flag = TEXT_CASE_FORMAT_LOWER) :
    ∃ text', makeTextCaseHomogeneous text flag = .ok (true, text') ∧
      text'.currPos = text.currPos ∧ text'.lines = text.lines ∧
      text'.bytesCount = text.bytesCount ∧ text'.linesCount = text.linesCount := by
  obtain ⟨starts, pad, hv⟩ := reachable_valid h
  rw [makeTextCaseHomogeneous_ok text starts pad hv]
  rcases hflag with hu | hl
  · exact ⟨{ text with buffer := text.buffer.map upperByte }, by rw [if_pos hu],
      rfl, rfl, rfl, rfl⟩
  · have hu : flag ≠ TEXT_CASE_FORMAT_UPPER := by rw [hl]; decide
    exact ⟨{ text with buffer := text.buffer.map lowerByte }, by rw [if_neg hu, if_pos hl],
      rfl, rfl, rfl, rfl⟩

theorem makeTextCaseHomogeneous_frame_witness :
    Reachable exampleTextAtEnd ∧ exampleTextAtEnd.currPos = exampleTextAtEnd.linesCount ∧
    ∃ text', makeTextCaseHomogeneous exampleTextAtEnd TEXT_CASE_FORMAT_UPPER = .ok (true, text') ∧
      text'.currPos = exampleTextAtEnd.currPos ∧ text'.lines = exampleTextAtEnd.lines ∧
      text'.bytesCount = exampleTextAtEnd.bytesCount ∧
      text'.linesCount = exampleTextAtEnd.linesCount :=
  ⟨Reachable.next _ exampleTextAtEnd (some 0) (Reachable.read (some [97]) _ (by rfl)) (by rfl),
    rfl,
    makeTextCaseHomogeneous_frame exampleTextAtEnd
      (Reachable.next _ exampleTextAtEnd (some 0) (Reachable.read (some [97]) _ (by rfl))
        (by rfl))
      TEXT_CASE_FORMAT_UPPER (Or.inl rfl)⟩

/-- C7: case normalisation is idempotent.  For every Text the public operations
can produce and each of the flags "u" and "l", a second call with the same flag
returns the very Text state (buffer, line starts, counts, cursor) that the
first call left. -/
theorem makeTextCaseHomogeneous_idempotent (text : Text) (h : Reachable text) (flag : String)
    (hflag : flag = TEXT_CASE_FORMAT_UPPER ∨ flag = TEXT_CASE_FORMAT_LOWER) :
    ∃ once, makeTextCaseHomogeneous text flag = .ok (true, once) ∧
      makeTextCaseHomogeneous once flag = .ok (true, once) := by
  obtain ⟨starts, pad, hv⟩ := reachable_valid h
  have hmm : ∀ f : Nat → Nat, CaseMap f →
      (text.buffer.map f).map f = text.buffer.map f := by
    intro f hf
    rw [List.map_map]
    apply List.map_congr_left
    intro b _
    exact hf.idem b
  rcases hflag with hu | hl
  · refine ⟨{ text with buffer := text.buffer.map upperByte }, ?_, ?_⟩
    · rw [makeTextCaseHomogeneous_ok text starts pad hv, if_pos hu]
    · rw [makeTextCaseHomogeneous_ok _ starts pad (valid_map hv upperByte_caseMap), if_pos hu]
      simp only [hmm upperByte upperByte_caseMap]
  · have hu : flag ≠ TEXT_CASE_FORMAT_UPPER := by rw [hl]; decide
    refine ⟨{ text with buffer := text.buffer.map lowerByte }, ?_, ?_⟩
    · rw [makeTextCaseHomogeneous_ok text starts pad hv, if_neg hu, if_pos hl]
    · rw [makeTextCaseHomogeneous_ok _ starts pad (valid_map hv lowerByte_caseMap),
        if_neg hu, if_pos hl]
      simp only [hmm lowerByte lowerByte_caseMap]

theorem makeTextCaseHomogeneous_idempotent_witness :
    Reachable exampleText ∧
    ∃ once, makeTextCaseHomogeneous exampleText TEXT_CASE_FORMAT_LOWER = .ok (true, once) ∧
      makeTextCaseHomogeneous once TEXT_CASE_FORMAT_LOWER = .ok (true, once) :=
  ⟨Reachable.read (some [97, 66, 10, 49, 100, 10]) exampleText (by rfl),
    makeTextCaseHomogeneous_idempotent exampleText
      (Reachable.read (some [97, 66, 10, 49, 100, 10]) exampleText (by rfl))
      TEXT_CASE_FORMAT_LOWER (Or.inr rfl)⟩

/-- C8, refuted as stated: the content "a\0b\n" is one line ended by '\n';
loading and writing it puts out "a\nb\n". -/
theorem load_write_roundtrip_counterexample :
    ([97, 0, 98, 10] : List Nat) ≠ [] ∧
      readTextFromFile (some [97, 0, 98, 10]) =
        .ok (some { bytesCount := 4, buffer := [97, 0, 98, 0, 0], lines := [some 0, some 2],
                    currPos := 0, linesCount := 2 }) ∧
      writeTextToFile []
          { bytesCount := 4, buffer := [97, 0, 98, 0, 0], lines := [some 0, some 2],
            currPos := 0, linesCount := 2 } =
        .ok (true, [97, 10, 98, 10],
          { bytesCount := 4, buffer := [97, 10, 98, 10, 0], lines := [some 0, some 2],
            currPos := 0, linesCount := 2 }) ∧
      loadThenWrite (some [97, 0, 98, 10]) = .ok (some (true, [97, 10, 98, 10])) ∧
      ([97, 10, 98, 10] : List Nat) ≠ [97, 0, 98, 10] := by
  decide

theorem replaceByte_back (content : List Nat) (hnul : NUL ∉ content) :
    (content.map (replaceByte NL NUL)).map (replaceByte NUL NL) = content := by
  rw [List.map_map]
  conv_rhs => rw [← List.map_id content]
  apply List.map_congr_left
  intro b hb
  have h0 : b ≠ NUL := fun h => hnul (h ▸ hb)
  by_cases h10 : b = NL
  · subst h10; simp [replaceByte]
  · simp [replaceByte, h10, h0]

theorem writeTextToFile_loaded (content dest : List Nat) (hnul : NUL ∉ content) :
    ∃ text', writeTextToFile dest (loadedText content) =
      .ok (true, dest ++ content, text') := by
  have hlen : (loadedText content).bytesCount ≤ (loadedText content).buffer.length := by
    simp [loadedText, loadedBuffer]
  have htake : (loadedText content).buffer.take (loadedText content).bytesCount =
      content.map (replaceByte NL NUL) := by
    show (loadedBuffer content).take content.length = _
    rw [loadedBuffer, List.take_append_of_le_length (by simp)]
    exact List.take_of_length_le (by simp)
  rw [writeTextToFile_eq dest _ hlen, htake, replaceByte_back content hnul]
  exact ⟨_, rfl⟩

theorem loadThenWrite_ok (content : List Nat) (hne : content ≠ []) (hnul : NUL ∉ content) :
    loadThenWrite (some content) = .ok (some (true, content)) := by
  obtain ⟨text', hw⟩ := writeTextToFile_loaded content [] hnul
  simp only [loadThenWrite,
    readTextFromFile_ok content hne (recordedStarts_room content hnul), hw]
  rfl

/-- C8, amended: for every non-empty content `F` without a NUL byte, loading `F`
and writing the text puts out exactly `bytesCount = |F|` bytes, equal to `F`
byte for byte, with `writeTextToFile` returning true; hence loading what was
written and writing it again puts out `F` once more. -/
theorem load_write_roundtrip (content : List Nat) (hne : content ≠ [])
    (hnul : NUL ∉ content) :
    (∃ text text', readTextFromFile (some content) = .ok (some text) ∧
      text.bytesCount = content.length ∧
      writeTextToFile [] text = .ok (true, content, text')) ∧
    (∀ ret out, loadThenWrite (some content) = .ok (some (ret, out)) →
      ret = true ∧ out = content ∧ loadThenWrite (some out) = .ok (some (true, content))) := by
  constructor
  · obtain ⟨text', hw⟩ := writeTextToFile_loaded content [] hnul
    exact ⟨loadedText content, text',
      readTextFromFile_ok content hne (recordedStarts_room content hnul), rfl,
      by simpa using hw⟩
  · intro ret out h
    rw [loadThenWrite_ok content hne hnul] at h
    have := Prod.mk.inj (Option.some.inj (Run.ok.inj h))
    obtain ⟨h1, h2⟩ := this
    subst h1 h2
    exact ⟨rfl, rfl, loadThenWrite_ok content hne hnul⟩

theorem load_write_roundtrip_witness :
    ([97, 13, 10, 10, 98] : List Nat) ≠ [] ∧ NUL ∉ ([97, 13, 10, 10, 98] : List Nat) ∧
      (∃ text text', readTextFromFile (some [97, 13, 10, 10, 98]) = .ok (some text) ∧
        text.bytesCount = ([97, 13, 10, 10, 98] : List Nat).length ∧
        writeTextToFile [] text = .ok (true, [97, 13, 10, 10, 98], text')) ∧
      loadThenWrite (some [97, 13, 10, 10, 98]) = .ok (some (true, [97, 13, 10, 10, 98])) :=
  ⟨by decide, by decide, (load_write_roundtrip _ (by decide) (by decide)).1,
    ((load_write_roundtrip [97, 13, 10, 10, 98] (by decide) (by decide)).2 true
      [97, 13, 10, 10, 98] (by rfl)).2.2⟩

/-- C9: for every Text obtained from `readTextFromFile`, whatever its cursor
and also after case normalisation, `copyText` returns a Text with the same
`bytesCount`, the same buffer at every index up to and including the sentinel,
the same `linesCount`, the same `lines` entries and cursor 0, and leaves the
original as it was. -/
theorem copyText_loaded (text : Text) (h : Loaded text) :
    ∃ copy, copyText text = .ok (copy, text) ∧
      copy.bytesCount = text.bytesCount ∧ copy.buffer = text.buffer ∧
      copy.linesCount = text.linesCount ∧ copy.lines = text.lines ∧ copy.currPos = 0 := by
  obtain ⟨pad, hv⟩ := loaded_valid h
  have hle : ¬ text.buffer.length < text.bytesCount := by rw [hv.buffer_length]; omega
  have hbuf := take_append_sentinel text.buffer text.bytesCount NUL hv.buffer_length hv.sentinel
  have hcount := hv.linesCount_eq
  rw [hv.lines_eq] at hcount
  simp only [List.map_cons, List.cons_append, List.length_cons, List.length_append,
    List.length_map, List.length_replicate] at hcount
  have hsplit := splitLines_ok text.buffer text.bytesCount text.linesCount hv.bytes_pos
    (by rw [hv.buffer_length]; omega) (by omega)
  have hpad : text.linesCount - 1 - (recordedStarts text.buffer text.bytesCount).length = pad := by
    omega
  rw [hpad] at hsplit
  have hlines : some 0 :: (recordedStarts text.buffer text.bytesCount).map some ++
      List.replicate pad none = text.lines := by
    rw [hv.lines_eq]; rfl
  rw [hlines] at hsplit
  refine ⟨{ text with currPos := 0 }, ?_, rfl, rfl, rfl, rfl, rfl⟩
  simp only [copyText, if_neg hle, hbuf, hsplit]

theorem copyText_loaded_witness :
    Loaded exampleTextUpper ∧
    ∃ copy, copyText exampleTextUpper = .ok (copy, exampleTextUpper) ∧
      copy.bytesCount = exampleTextUpper.bytesCount ∧ copy.buffer = exampleTextUpper.buffer ∧
      copy.linesCount = exampleTextUpper.linesCount ∧ copy.lines = exampleTextUpper.lines ∧
      copy.currPos = 0 :=
  ⟨Loaded.next _ exampleTextUpper (some 0)
      (Loaded.homogeneous exampleText _ TEXT_CASE_FORMAT_UPPER true
        (Loaded.read (some [97, 66, 10, 49, 100, 10]) exampleText (by rfl)) (by rfl)) (by rfl),
    copyText_loaded exampleTextUpper
      (Loaded.next _ exampleTextUpper (some 0)
        (Loaded.homogeneous exampleText _ TEXT_CASE_FORMAT_UPPER true
          (Loaded.read (some [97, 66, 10, 49, 100, 10]) exampleText (by rfl)) (by rfl))
        (by rfl))⟩

/-- C10: for every Text the public operations can produce, `nextTextLine` with
`currPos < linesCount` returns the entry `lines[currPos]` and adds one to
`currPos`, changing nothing else; with `currPos >= linesCount` it returns
`NULL` and leaves the whole state, cursor included, as it was (this on every
Text). -/
theorem nextTextLine_spec (text : Text) :
    (Reachable text → text.currPos < text.linesCount →
      ∃ line, text.lines[text.currPos]? = some line ∧
        nextTextLine text = .ok (line, { text with currPos := text.currPos + 1 })) ∧
    (text.linesCount ≤ text.currPos → nextTextLine text = .ok (none, text)) := by
  constructor
  · intro h hlt
    obtain ⟨starts, pad, hv⟩ := reachable_valid h
    have hlen : text.currPos < text.lines.length := by rw [← hv.linesCount_eq]; exact hlt
    refine ⟨text.lines[text.currPos], List.getElem?_eq_getElem hlen, ?_⟩
    simp only [nextTextLine, if_neg (show ¬ text.currPos ≥ text.linesCount by omega),
      List.getElem?_eq_getElem hlen]
  · intro hge
    simp only [nextTextLine, if_pos (show text.currPos ≥ text.linesCount from hge)]

theorem nextTextLine_spec_witness :
    (Reachable exampleText ∧ exampleText.currPos < exampleText.linesCount ∧
      ∃ line, exampleText.lines[exampleText.currPos]? = some line ∧
        nextTextLine exampleText =
          .ok (line, { exampleText with currPos := exampleText.currPos + 1 })) ∧
    (exampleTextAtEnd.linesCount ≤ exampleTextAtEnd.currPos ∧
      nextTextLine exampleTextAtEnd = .ok (none, exampleTextAtEnd)) :=
  ⟨⟨Reachable.read (some [97, 66, 10, 49, 100, 10]) exampleText (by rfl), by decide,
      (nextTextLine_spec exampleText).1
        (Reachable.read (some [97, 66, 10, 49, 100, 10]) exampleText (by rfl)) (by decide)⟩,
    ⟨by decide, (nextTextLine_spec exampleTextAtEnd).2 (by decide)⟩⟩

/-! ### The claims on iteration, `replaceAllOccurrences` and the string functions -/

theorem iterated_fields {text text' : Text} (h : Iterated text text') :
    text' = { text with currPos := text'.currPos } := by
  induction h with
  | refl => rfl
  | step mid t' line _ hnext ih =>
    rcases nextTextLine_inv mid t' line hnext with ⟨_, _, rfl⟩ | ⟨_, _, rfl⟩
    · exact ih
    · rw [ih]

theorem iterated_trans {a b c : Text} (hab : Iterated a b) (hbc : Iterated b c) :
    Iterated a c := by
  induction hbc with
  | refl => exact hab
  | step mid t' line _ hnext ih => exact Iterated.step a mid t' line ih hnext

theorem reset_iterated {text text' : Text} (h0 : text.currPos = 0) (h : Iterated text text') :
    resetTextToStart text' = text := by
  rw [iterated_fields h, resetTextToStart]
  cases text
  simp only at h0
  subst h0
  rfl

theorem readLines_iterated :
    ∀ (fuel : Nat) (text final : Text) (ls : List (List Nat)),
      readLines fuel text = .ok (ls, final) → Iterated text final := by
  intro fuel
  induction fuel with
  | zero => intro text final ls h; simp [readLines] at h
  | succ fuel ih =>
    intro text final ls h
    unfold readLines at h
    cases hn : nextTextLine text with
    | fault e => rw [hn] at h; cases h
    | ok val =>
      obtain ⟨line, text'⟩ := val
      rw [hn] at h
      have hstep : Iterated text text' := Iterated.step text text text' line (Iterated.refl text) hn
      cases line with
      | none =>
        have := (Prod.mk.inj (Run.ok.inj h)).2
        subst this
        exact hstep
      | some p =>
        simp only at h
        cases hc : cString text'.buffer p with
        | fault e => rw [hc] at h; cases h
        | ok s =>
          rw [hc] at h
          simp only at h
          cases hr : readLines fuel text' with
          | fault e => rw [hr] at h; cases h
          | ok val2 =>
            obtain ⟨ss, text''⟩ := val2
            rw [hr] at h
            have := (Prod.mk.inj (Run.ok.inj h)).2
            subst this
            exact iterated_trans hstep (ih text' text'' ss hr)

theorem readLines_valid (text : Text) (starts : List Nat) (pad : Nat)
    (hv : Valid text starts pad) (h0 : text.currPos = 0) :
    ∃ final, readLines (text.linesCount + 1) text =
      .ok ((0 :: starts).map (stringAt text.buffer), final) := by
  have hcount := hv.linesCount_eq
  rw [hv.lines_eq] at hcount
  simp only [List.length_append, List.length_map, List.length_replicate] at hcount
  exact ⟨_, readLines_ok (0 :: starts) [] pad (text.linesCount + 1) text
    (by simpa using hv.lines_eq) h0 hv.linesCount_eq (by omega)
    (by
      intro s hs
      apply NUL_mem_drop_of_getElem? _ s text.bytesCount _ hv.sentinel
      rcases List.mem_cons.mp hs with rfl | hs
      · exact Nat.zero_le _
      · exact hv.starts_le s hs)⟩

/-- C11: for every Text the public operations can produce, taken with its
cursor at 0, the full `nextTextLine` iteration returns a sequence of lines;
however far calls of `nextTextLine` moved the cursor afterwards (the full
iteration among them), `resetTextToStart` followed by a full iteration returns
exactly that sequence again.  `resetTextToStart` sets `currPos` to 0 and
changes no other field. -/
theorem resetTextToStart_iteration (text : Text) (h : Reachable text)
    (h0 : text.currPos = 0) :
    (∃ ls final, readLines (text.linesCount + 1) text = .ok (ls, final) ∧
      Iterated text final ∧
      ∀ text', Iterated text text' →
        readLines ((resetTextToStart text').linesCount + 1) (resetTextToStart text') =
          .ok (ls, final)) ∧
    (∀ t : Text, (resetTextToStart t).currPos = 0 ∧
      (resetTextToStart t).buffer = t.buffer ∧ (resetTextToStart t).lines = t.lines ∧
      (resetTextToStart t).bytesCount = t.bytesCount ∧
      (resetTextToStart t).linesCount = t.linesCount) := by
  obtain ⟨starts, pad, hv⟩ := reachable_valid h
  obtain ⟨final, hread⟩ := readLines_valid text starts pad hv h0
  refine ⟨⟨_, final, hread, readLines_iterated _ _ _ _ hread, ?_⟩,
    fun t => ⟨rfl, rfl, rfl, rfl, rfl⟩⟩
  intro text' hit
  rw [reset_iterated h0 hit]
  exact hread

theorem resetTextToStart_iteration_witness :
    Reachable exampleText ∧ exampleText.currPos = 0 ∧
      Iterated exampleText exampleTextNext ∧
      readLines (exampleText.linesCount + 1) exampleText =
        .ok ([[97, 66], [49, 100]], { exampleText with currPos := 3 }) ∧
      readLines ((resetTextToStart exampleTextNext).linesCount + 1)
          (resetTextToStart exampleTextNext) =
        .ok ([[97, 66], [49, 100]], { exampleText with currPos := 3 }) := by
  have hreach : Reachable exampleText :=
    Reachable.read (some [97, 66, 10, 49, 100, 10]) exampleText (by rfl)
  have hit : Iterated exampleText exampleTextNext :=
    Iterated.step _ exampleText _ (some 0) (Iterated.refl _) (by rfl)
  obtain ⟨ls, final, h1, _, h2⟩ := (resetTextToStart_iteration exampleText hreach rfl).1
  have h3 := h2 exampleTextNext hit
  have h4 : readLines (exampleText.linesCount + 1) exampleText =
      .ok ([[97, 66], [49, 100]], { exampleText with currPos := 3 }) := by rfl
  rw [h1] at h4
  rw [h4] at h3
  exact ⟨hreach, rfl, hit, by rfl, h3⟩

theorem countP_zip_self (l : List Nat) :
    (l.zip l).countP (fun p => decide (p.1 ≠ p.2)) = 0 := by
  induction l with
  | nil => rfl
  | cons b rest ih =>
    simp only [List.zip_cons_cons, List.countP_cons, ih]
    simp

theorem changed_count (target replacement : Nat) (hne : target ≠ replacement) :
    ∀ (buffer : List Nat) (n : Nat),
      (buffer.zip ((buffer.take n).map (replaceByte target replacement) ++
          buffer.drop n)).countP (fun p => decide (p.1 ≠ p.2)) =
        (buffer.take n).count target := by
  intro buffer
  induction buffer with
  | nil => intro n; simp
  | cons b rest ih =>
    intro n
    cases n with
    | zero => simpa using countP_zip_self (b :: rest)
    | succ n =>
      simp only [List.take_succ_cons, List.map_cons, List.drop_succ_cons, List.cons_append,
        List.zip_cons_cons, List.countP_cons, ih n, List.count_cons]
      by_cases hb : b = target
      · subst hb
        simp [replaceByte, hne]
      · have hb' : ¬ target = b := fun h => hb h.symm
        simp [replaceByte, hb, hb']

/-- C12: for every buffer of at least `n` bytes and every pair of byte values,
`replaceAllOccurrences` returns; afterwards each index below `n` holds
`replacement` where the byte was `target` and the old byte elsewhere, every
index from `n` on is unchanged, and the value returned is the number of bytes
rewritten, that is of indices below `n` whose byte was `target` (with
`target` and `replacement` different, the number of indices whose byte has
changed).  In the loader it is the number of '\n' bytes of the content. -/
theorem replaceAllOccurrences_spec (buffer : List Nat) (n target replacement : Nat)
    (hn : n ≤ buffer.length) :
    (∃ buffer' count,
      replaceAllOccurrences buffer n target replacement = .ok (buffer', count) ∧
      buffer'.length = buffer.length ∧
      (∀ (i b : Nat), i < n → buffer[i]? = some b →
        buffer'[i]? = some (if b = target then replacement else b)) ∧
      (∀ i : Nat, n ≤ i → buffer'[i]? = buffer[i]?) ∧
      count = (buffer.take n).count target ∧
      (target ≠ replacement →
        count = (buffer.zip buffer').countP (fun p => decide (p.1 ≠ p.2)))) ∧
    (∀ content : List Nat, ∃ split,
      replaceAllOccurrences (content ++ [NUL]) content.length NL NUL =
        .ok (split, content.count NL)) := by
  have htake : (buffer.take n).length = n := by rw [List.length_take]; omega
  refine ⟨⟨_, _, replaceAllOccurrences_eq target replacement buffer n hn, ?_, ?_, ?_, rfl, ?_⟩,
    fun content => ⟨_, loadedBuffer_replace content⟩⟩
  · rw [List.length_append, List.length_map, htake, List.length_drop]; omega
  · intro i b hi hb
    rw [List.getElem?_append_left (by rw [List.length_map, htake]; exact hi),
      List.getElem?_map, List.getElem?_take_of_lt hi, hb]
    rfl
  · intro i hi
    rw [List.getElem?_append_right (by rw [List.length_map, htake]; exact hi),
      List.length_map, htake, List.getElem?_drop]
    congr 1; omega
  · intro hne
    exact (changed_count target replacement hne buffer n).symm

theorem replaceAllOccurrences_spec_witness :
    (3 : Nat) ≤ ([97, 10, 10, 10, 0] : List Nat).length ∧
      ∃ buffer' count,
        replaceAllOccurrences [97, 10, 10, 10, 0] 3 10 0 = .ok (buffer', count) ∧
        buffer'.length = ([97, 10, 10, 10, 0] : List Nat).length ∧
        (∀ (i b : Nat), i < 3 → ([97, 10, 10, 10, 0] : List Nat)[i]? = some b →
          buffer'[i]? = some (if b = 10 then 0 else b)) ∧
        (∀ i : Nat, 3 ≤ i → buffer'[i]? = ([97, 10, 10, 10, 0] : List Nat)[i]?) ∧
        count = (([97, 10, 10, 10, 0] : List Nat).take 3).count 10 ∧
        ((10 : Nat) ≠ 0 →
          count = (([97, 10, 10, 10, 0] : List Nat).zip buffer').countP
            (fun p => decide (p.1 ≠ p.2))) :=
  ⟨by decide, (replaceAllOccurrences_spec [97, 10, 10, 10, 0] 3 10 0 (by decide)).1⟩

theorem replaceAllOccurrences_example :
    replaceAllOccurrences [97, 10, 10, 10, 0] 3 10 0 = .ok ([97, 0, 0, 10, 0], 2) ∧
      replaceAllOccurrences [97, 97, 98] 3 97 97 = .ok ([97, 97, 98], 2) := by
  decide

theorem strWalk_string (f : Nat → Nat) (rest : List Nat) :
    ∀ s : List Nat, NUL ∉ s →
      strWalk f (s ++ NUL :: rest) = .ok (s.map f ++ NUL :: rest, s.length) := by
  intro s
  induction s with
  | nil => intro _; simp [strWalk]
  | cons c cs ih =>
    intro h
    have hc : c ≠ NUL := fun hc => h (by simp [hc])
    have hcs : NUL ∉ cs := fun hcs => h (by simp [hcs])
    simp [strWalk, hc, ih hcs]

/-- The string functions on a string `s` that sits at offset 0: the buffer holds
the converted string, and the pointer returned is the one to its final NUL. -/
theorem strAt_string (f : Nat → Nat) (s rest : List Nat) (h : NUL ∉ s) :
    strAt f (s ++ NUL :: rest) 0 = .ok (s.map f ++ NUL :: rest, s.length) := by
  simp [strAt, strWalk_string f rest s h]

/-- C13, the code at the failing input "abc123": `strToUpper` converts the
buffer to "ABC123" but returns `str` after the loop has advanced it, the
pointer to the final NUL at offset 6, so the string returned is empty and not
"ABC123"; likewise `strToLower` on "ABC123". -/
theorem strToUpper_returns_end :
    strToUpper [97, 98, 99, 49, 50, 51, 0] 0 = .ok ([65, 66, 67, 49, 50, 51, 0], 6) ∧
      cString [65, 66, 67, 49, 50, 51, 0] 6 = .ok [] ∧
      cString [65, 66, 67, 49, 50, 51, 0] 0 = .ok [65, 66, 67, 49, 50, 51] ∧
      strToLower [65, 66, 67, 49, 50, 51, 0] 0 = .ok ([97, 98, 99, 49, 50, 51, 0], 6) ∧
      cString [97, 98, 99, 49, 50, 51, 0] 6 = .ok [] ∧
      cString [97, 98, 99, 49, 50, 51, 0] 0 = .ok [97, 98, 99, 49, 50, 51] := by
  decide

/-! ### The claims on the line-start array -/

theorem nextCalls_eq :
    ∀ (k : Nat) (text : Text), text.lines.length = text.linesCount →
      text.currPos ≤ text.linesCount →
      nextCalls k text =
        .ok ((text.lines.drop text.currPos).take k ++
              List.replicate (k - (text.linesCount - text.currPos)) none,
             { text with currPos := min (text.currPos + k) text.linesCount }) := by
  intro k
  induction k with
  | zero =>
    intro text _ hle
    simp [nextCalls, Nat.min_eq_left hle]
  | succ k ih =>
    intro text hlen hle
    by_cases hc : text.currPos ≥ text.linesCount
    · have heq : text.currPos = text.linesCount := by omega
      have hdrop : text.lines.drop text.currPos = [] :=
        List.drop_of_length_le (by omega)
      have hih := ih text hlen hle
      rw [hdrop] at hih
      simp only [nextCalls, nextTextLine, if_pos hc, hih, hdrop]
      simp only [heq, Nat.sub_self, Nat.sub_zero, List.take_nil, List.nil_append,
        List.replicate_succ]
      have h1 : min (text.linesCount + k) text.linesCount = text.linesCount := by omega
      have h2 : min (text.linesCount + (k + 1)) text.linesCount = text.linesCount := by omega
      rw [h1, h2]
    · have hlt : text.currPos < text.lines.length := by omega
      have hget : text.lines[text.currPos]? = some text.lines[text.currPos] :=
        List.getElem?_eq_getElem hlt
      have hih := ih { text with currPos := text.currPos + 1 } hlen (by simp only; omega)
      simp only [nextCalls, nextTextLine, if_neg hc, hget, hih]
      have hdrop : text.lines.drop text.currPos =
          text.lines[text.currPos] :: text.lines.drop (text.currPos + 1) :=
        List.drop_eq_getElem_cons hlt
      rw [hdrop, List.take_succ_cons]
      have h1 : k + 1 - (text.linesCount - text.currPos) =
          k - (text.linesCount - (text.currPos + 1)) := by omega
      have h2 : text.currPos + 1 + k = text.currPos + (k + 1) := by omega
      rw [h1, h2]
      rfl

theorem lastLineFrom_nones (i n : Nat) :
    lastLineFrom i (List.replicate n (none : Option Nat)) = none := by
  induction n generalizing i with
  | zero => rfl
  | succ n ih => simp [List.replicate_succ, lastLineFrom, ih]

theorem lastLineFrom_append_nones (l : List (Option Nat)) (n : Nat) :
    ∀ i : Nat, lastLineFrom i (l ++ List.replicate n none) = lastLineFrom i l := by
  induction l with
  | nil => intro i; simpa [lastLineFrom] using lastLineFrom_nones i n
  | cons r rest ih =>
    intro i
    show lastLineFrom i (r :: (rest ++ List.replicate n none)) = _
    simp only [lastLineFrom, ih]

theorem lastLineFrom_concat_some (l : List (Option Nat)) (p : Nat) :
    ∀ i : Nat, lastLineFrom i (l ++ [some p]) = some (i + l.length) := by
  induction l with
  | nil => intro i; simp [lastLineFrom]
  | cons r rest ih =>
    intro i
    show lastLineFrom i (r :: (rest ++ [some p])) = _
    simp only [lastLineFrom, ih, List.length_cons]
    have : i + 1 + rest.length = i + (rest.length + 1) := by omega
    rw [this]

theorem take_concat_getElem? {α : Type} (l : List α) (c : Nat) (x : α)
    (h : l[c]? = some x) : l.take (c + 1) = l.take c ++ [x] := by
  rw [List.take_succ, h]
  rfl

/-- C14, refuted as stated: after loading "a\n" two calls of `nextTextLine`
return the line at index 0 and then `NULL`, the unrecorded last entry of
`lines`; the cursor is 2 and `getCurrentLineNumber` returns 1, which is not the
index 0 of the last line produced. -/
theorem getCurrentLineNumber_counterexample :
    readTextFromFile (some [97, 10]) = .ok (some exampleTextNewline) ∧
      nextCalls 2 exampleTextNewline =
        .ok ([some 0, none], { exampleTextNewline with currPos := 2 }) ∧
      getCurrentLineNumber { exampleTextNewline with currPos := 2 } = 1 ∧
      lastLineFrom 0 [some 0, none] = some 0 := by
  decide

/-- C14, amended: for every Text the public operations can produce (those that
`readTextFromFile` returns among them), taken with its cursor at 0, so after
loading or after `resetTextToStart`, and every `k >= 1`: `k` calls of
`nextTextLine` return the first `k` entries of `lines` and `NULL` from then on;
afterwards the cursor is at least 1, `getCurrentLineNumber` returns
`cursor - 1`, the index of the last entry of `lines` that was returned, and
this is the index of the last line produced whenever that entry is a line and
not the null pointer. -/
theorem getCurrentLineNumber_after_calls (text : Text) (h : Reachable text)
    (h0 : text.currPos = 0) (k : Nat) (hk : 1 ≤ k) :
    ∃ rets text', nextCalls k text = .ok (rets, text') ∧
      rets = text.lines.take k ++ List.replicate (k - text.linesCount) none ∧
      text'.currPos = min k text.linesCount ∧ 1 ≤ text'.currPos ∧
      getCurrentLineNumber text' = text'.currPos - 1 ∧
      (∀ p : Nat, text.lines[text'.currPos - 1]? = some (some p) →
        lastLineFrom 0 rets = some (getCurrentLineNumber text')) := by
  obtain ⟨starts, pad, hv⟩ := reachable_valid h
  have hlen : text.lines.length = text.linesCount := hv.linesCount_eq.symm
  have hpos : 1 ≤ text.linesCount := by
    rw [← hlen, hv.lines_eq]; simp
  have hcalls := nextCalls_eq k text hlen hv.cursor_le
  rw [h0] at hcalls
  simp only [List.drop_zero, Nat.sub_zero, Nat.zero_add] at hcalls
  have hcur : 1 ≤ min k text.linesCount := by omega
  have hnum : getCurrentLineNumber { text with currPos := min k text.linesCount } =
      min k text.linesCount - 1 := sizePred_pos hcur
  refine ⟨_, _, hcalls, rfl, rfl, hcur, hnum, ?_⟩
  intro p hp
  simp only at hp
  rw [hnum]
  obtain ⟨c, hc⟩ : ∃ c, min k text.linesCount = c + 1 := ⟨min k text.linesCount - 1, by omega⟩
  rw [hc, Nat.add_sub_cancel] at hp
  have htake : text.lines.take k = text.lines.take (c + 1) := by
    by_cases hkl : k ≤ text.linesCount
    · have : k = c + 1 := by omega
      rw [this]
    · have hc' : c + 1 = text.linesCount := by omega
      rw [List.take_of_length_le (by omega), List.take_of_length_le (by omega)]
  rw [htake, take_concat_getElem? text.lines c (some p) hp, lastLineFrom_append_nones,
    lastLineFrom_concat_some, hc, Nat.add_sub_cancel, Nat.zero_add, List.length_take]
  congr 1
  omega

theorem getCurrentLineNumber_after_calls_witness :
    Reachable exampleText ∧ exampleText.currPos = 0 ∧ 1 ≤ 2 ∧
      ∃ rets text', nextCalls 2 exampleText = .ok (rets, text') ∧
        rets = exampleText.lines.take 2 ++ List.replicate (2 - exampleText.linesCount) none ∧
        text'.currPos = min 2 exampleText.linesCount ∧ 1 ≤ text'.currPos ∧
        getCurrentLineNumber text' = text'.currPos - 1 ∧
        (∀ p : Nat, exampleText.lines[text'.currPos - 1]? = some (some p) →
          lastLineFrom 0 rets = some (getCurrentLineNumber text')) :=
  ⟨Reachable.read (some [97, 66, 10, 49, 100, 10]) exampleText (by rfl), rfl, by decide,
    getCurrentLineNumber_after_calls exampleText
      (Reachable.read (some [97, 66, 10, 49, 100, 10]) exampleText (by rfl)) rfl 2
      (by decide)⟩

theorem lineStartsFrom_mem_inv (scan : List Nat) :
    ∀ (o s : Nat), s ∈ lineStartsFrom o scan →
      ∃ k : Nat, s = o + k + 1 ∧ scan[k]? = some NUL := by
  induction scan with
  | nil => intro o s h; simp [lineStartsFrom] at h
  | cons b rest ih =>
    intro o s h
    by_cases hb : b = NUL
    · simp only [lineStartsFrom, hb, if_true, List.mem_cons] at h
      rcases h with h | h
      · exact ⟨0, by omega, by simp [hb]⟩
      · obtain ⟨k, hk, hz⟩ := ih (o + 1) s h
        exact ⟨k + 1, by omega, by simpa using hz⟩
    · simp only [lineStartsFrom, hb, if_false] at h
      obtain ⟨k, hk, hz⟩ := ih (o + 1) s h
      exact ⟨k + 1, by omega, by simpa using hz⟩

theorem recordedStarts_mem_inv (buffer : List Nat) (bytesCount s : Nat)
    (h : s ∈ recordedStarts buffer bytesCount) :
    0 < s ∧ s < bytesCount ∧ buffer[s - 1]? = some NUL := by
  obtain ⟨k, hk, hz⟩ := lineStartsFrom_mem_inv _ 0 s h
  rw [List.getElem?_take] at hz
  split_ifs at hz with hlt
  have : s - 1 = k := by omega
  rw [this]
  exact ⟨by omega, by omega, hz⟩

theorem loadedBuffer_NUL_was_NL (content : List Nat) (hnul : NUL ∉ content) (k : Nat)
    (hk : k < content.length) (hz : (loadedBuffer content)[k]? = some NUL) :
    content[k]? = some NL := by
  rw [loadedBuffer, List.getElem?_append_left (by simpa using hk), List.getElem?_map] at hz
  cases hb : content[k]? with
  | none => rw [hb] at hz; cases hz
  | some b =>
    rw [hb] at hz
    have hrep : replaceByte NL NUL b = NUL := by simpa using hz
    have hmem : b ∈ content := List.getElem?_mem hb
    unfold replaceByte at hrep
    split_ifs at hrep with h10
    · rw [h10]
    · exact absurd (hrep ▸ hmem) hnul

theorem loaded_pad (content : List Nat) (hne : content ≠ []) (hnul : NUL ∉ content) :
    content.count NL - (recordedStarts (loadedBuffer content) content.length).length =
      if content.getLast? = some NL then 1 else 0 := by
  rcases List.eq_nil_or_concat content with h | ⟨body, x, h⟩
  · exact absurd h hne
  · rw [List.concat_eq_append] at h
    subst h
    have hbody : NUL ∉ body := fun hb => hnul (by simp [hb])
    rw [loaded_recordedStarts, length_lineStartsFrom, count_NUL_map_replace body hbody,
      List.getLast?_concat, List.count_append]
    by_cases hx : x = NL
    · subst hx; simp
    · have hx' : ¬ NL = x := fun h => hx h.symm
      simp [hx, hx', List.count_cons]

/-- C15, refuted as stated: for the content "a\n" `linesCount` is 2 but the
second entry of `lines` is not recorded, it is the null pointer; and for
"\0a\n" the entry 1 follows a byte that was a NUL of the file, not a
terminator. -/
theorem lineStarts_counterexample :
    readTextFromFile (some [97, 10]) =
        .ok (some { bytesCount := 2, buffer := [97, 0, 0], lines := [some 0, none],
                    currPos := 0, linesCount := 2 }) ∧
      readTextFromFile (some [0, 97, 10]) =
        .ok (some { bytesCount := 3, buffer := [0, 97, 0, 0], lines := [some 0, some 1],
                    currPos := 0, linesCount := 2 }) ∧
      ([0, 97, 10] : List Nat)[0]? ≠ some NL := by
  decide

/-- C15, amended: for every Text that `readTextFromFile` returns for a content,
`linesCount >= 1`, the `lines` array has exactly `linesCount` entries, entry 0
is the offset 0, the recorded entries come first and null pointers fill the
rest, and every recorded entry is 0 or an offset right behind a NUL byte of
the buffer.  For a content without NUL byte that byte was a '\n' of the
content, and every entry is recorded except the last one when the content ends
with '\n'. -/
theorem readTextFromFile_lineStarts (content : List Nat) (text : Text)
    (h : readTextFromFile (some content) = .ok (some text)) :
    1 ≤ text.linesCount ∧ text.lines.length = text.linesCount ∧
      text.lines[0]? = some (some 0) ∧
      (∃ (starts : List Nat) (pad : Nat), text.lines = starts.map some ++ List.replicate pad none ∧
        (NUL ∉ content → pad = if content.getLast? = some NL then 1 else 0)) ∧
      (∀ (i p : Nat), text.lines[i]? = some (some p) →
        p = 0 ∨ (0 < p ∧ text.buffer[p - 1]? = some NUL ∧
          (NUL ∉ content → content[p - 1]? = some NL))) := by
  obtain ⟨content', hfile, hne, htext, hsplit⟩ := readTextFromFile_inv _ _ h
  have := Option.some.inj hfile
  subst this
  obtain ⟨hroom, hlines⟩ := splitLines_inv _ _ _ _ (List.length_pos.mpr hne)
    (by simp [loadedBuffer]; omega) hsplit
  have hb : text.buffer = loadedBuffer content := by rw [htext]
  have hlc : text.linesCount = content.count NL + 1 := by rw [htext]
  refine ⟨by omega, ?_, by rw [hlines]; simp, ?_, ?_⟩
  · rw [hlines, hlc]; simp; omega
  · refine ⟨0 :: recordedStarts (loadedBuffer content) content.length, _, hlines, ?_⟩
    intro hnul
    rw [← loaded_pad content hne hnul]
    omega
  · intro i p hp
    have hmem : some p ∈ text.lines := List.getElem?_mem hp
    rw [hlines] at hmem
    simp only [List.mem_append, List.mem_cons, List.mem_map, Option.some.injEq,
      exists_eq_right, List.mem_replicate] at hmem
    rcases hmem with (h0 | hrec) | hnone
    · exact Or.inl h0
    · obtain ⟨hpos, hlt, hz⟩ := recordedStarts_mem_inv _ _ p hrec
      refine Or.inr ⟨hpos, by rw [hb]; exact hz, fun hnul => ?_⟩
      exact loadedBuffer_NUL_was_NL content hnul (p - 1) (by omega) hz
    · exact absurd hnone.2 (by simp)

theorem readTextFromFile_lineStarts_witness :
    readTextFromFile (some [97, 66, 10, 49, 100, 10]) = .ok (some exampleText) ∧
      1 ≤ exampleText.linesCount ∧ exampleText.lines.length = exampleText.linesCount ∧
      exampleText.lines[0]? = some (some 0) ∧
      (∃ (starts : List Nat) (pad : Nat), exampleText.lines = starts.map some ++ List.replicate pad none ∧
        (NUL ∉ ([97, 66, 10, 49, 100, 10] : List Nat) →
          pad = if ([97, 66, 10, 49, 100, 10] : List Nat).getLast? = some NL then 1 else 0)) ∧
      (∀ (i p : Nat), exampleText.lines[i]? = some (some p) →
        p = 0 ∨ (0 < p ∧ exampleText.buffer[p - 1]? = some NUL ∧
          (NUL ∉ ([97, 66, 10, 49, 100, 10] : List Nat) →
            ([97, 66, 10, 49, 100, 10] : List Nat)[p - 1]? = some NL))) :=
  ⟨by rfl, readTextFromFile_lineStarts [97, 66, 10, 49, 100, 10] exampleText (by rfl)⟩

/-! ### The claims on the invariants of a Text -/

theorem strWalk_ok_mem (f : Nat → Nat) :
    ∀ (l l' : List Nat) (moved : Nat), strWalk f l = .ok (l', moved) → NUL ∈ l := by
  intro l
  induction l with
  | nil => intro l' moved h; simp [strWalk] at h
  | cons c rest ih =>
    intro l' moved h
    by_cases hc : c = NUL
    · simp [hc]
    · unfold strWalk at h
      rw [if_neg hc] at h
      cases hr : strWalk f rest with
      | fault e => rw [hr] at h; cases h
      | ok val =>
        obtain ⟨rest', m⟩ := val
        exact List.mem_cons_of_mem _ (ih rest' m hr)

theorem strAt_keeps_NUL {f : Nat → Nat} (hf : CaseMap f) (buffer buffer' : List Nat)
    (str ret : Nat) (h : strAt f buffer str = .ok (buffer', ret)) :
    buffer'.length = buffer.length ∧
      ∀ i : Nat, buffer[i]? = some NUL → buffer'[i]? = some NUL := by
  have hmem : NUL ∈ buffer.drop str := by
    unfold strAt at h
    cases hw : strWalk f (buffer.drop str) with
    | fault e => rw [hw] at h; cases h
    | ok val =>
      obtain ⟨l', m⟩ := val
      exact strWalk_ok_mem f _ l' m hw
  obtain ⟨cur', ret', hstr, hlen, hpart, _⟩ := strAt_spec f buffer str hmem
  rw [hstr] at h
  have := (Prod.mk.inj (Run.ok.inj h)).1
  subst this
  exact ⟨hlen, fun i hi => (part_zero_iff hf (hpart i)).mpr hi⟩

theorem caseLoop_frame (isToUpper : Bool) :
    ∀ (fuel : Nat) (text text' : Text), caseLoop isToUpper fuel text = .ok text' →
      text'.linesCount = text.linesCount ∧ text'.lines = text.lines ∧
      text'.bytesCount = text.bytesCount ∧ text'.buffer.length = text.buffer.length ∧
      ∀ i : Nat, text.buffer[i]? = some NUL → text'.buffer[i]? = some NUL := by
  intro fuel
  induction fuel with
  | zero => intro text text' h; simp [caseLoop] at h
  | succ fuel ih =>
    intro text text' h
    unfold caseLoop at h
    cases hn : nextTextLine text with
    | fault e => rw [hn] at h; cases h
    | ok val =>
      obtain ⟨line, mid⟩ := val
      rw [hn] at h
      have hmid : mid = { text with currPos := mid.currPos } := by
        rcases nextTextLine_inv text mid line hn with ⟨_, _, rfl⟩ | ⟨_, _, rfl⟩ <;> rfl
      cases line with
      | none =>
        have := Run.ok.inj h
        subst this
        rw [hmid]
        exact ⟨rfl, rfl, rfl, rfl, fun i hi => hi⟩
      | some p =>
        simp only [caseLoop_select] at h
        cases hs : strAt (caseByte isToUpper) mid.buffer p with
        | fault e => rw [hs] at h; cases h
        | ok val2 =>
          obtain ⟨buffer, ret⟩ := val2
          rw [hs] at h
          obtain ⟨hlen, hzero⟩ := strAt_keeps_NUL (caseByte_caseMap isToUpper) _ _ _ _ hs
          obtain ⟨h1, h2, h3, h4, h5⟩ := ih _ text' h
          have hb : mid.buffer = text.buffer := by rw [hmid]
          have hl : mid.linesCount = text.linesCount := by rw [hmid]
          have hls : mid.lines = text.lines := by rw [hmid]
          have hbc : mid.bytesCount = text.bytesCount := by rw [hmid]
          simp only at h1 h2 h3 h4 h5
          refine ⟨h1.trans hl, h2.trans hls, h3.trans hbc, ?_, ?_⟩
          · rw [h4, hlen, hb]
          · intro i hi
            exact h5 i (hzero i (by rw [hb]; exact hi))

theorem caseHomogeneous_fields (text text' : Text) (flag : String) (ret : Bool)
    (h : makeTextCaseHomogeneous text flag = .ok (ret, text')) :
    text'.currPos = text.currPos ∧ text'.linesCount = text.linesCount ∧
      text'.lines = text.lines ∧ text'.bytesCount = text.bytesCount ∧
      ∀ i : Nat, text.buffer[i]? = some NUL → text'.buffer[i]? = some NUL := by
  have hom : ∀ b : Bool, homogenise b text = .ok (ret, text') →
      text'.currPos = text.currPos ∧ text'.linesCount = text.linesCount ∧
      text'.lines = text.lines ∧ text'.bytesCount = text.bytesCount ∧
      ∀ i : Nat, text.buffer[i]? = some NUL → text'.buffer[i]? = some NUL := by
    intro b hb
    unfold homogenise at hb
    simp only at hb
    cases hl : caseLoop b (text.linesCount + 1) { text with currPos := 0 } with
    | fault e => rw [hl] at hb; cases hb
    | ok done =>
      rw [hl] at hb
      have := (Prod.mk.inj (Run.ok.inj hb)).2
      subst this
      obtain ⟨h1, h2, h3, _, h5⟩ := caseLoop_frame b _ _ _ hl
      exact ⟨rfl, h1, h2, h3, h5⟩
  unfold makeTextCaseHomogeneous at h
  split_ifs at h
  · exact hom true h
  · exact hom false h
  · have := (Prod.mk.inj (Run.ok.inj h)).2
    subst this
    exact ⟨rfl, rfl, rfl, rfl, fun i hi => hi⟩

theorem copyText_fields (text copy text' : Text) (h : copyText text = .ok (copy, text')) :
    text' = text ∧ copy.currPos = 0 ∧ copy.bytesCount = text.bytesCount ∧
      copy.linesCount = text.linesCount ∧
      copy.buffer = text.buffer.take text.bytesCount ++ [NUL] ∧
      text.bytesCount ≤ text.buffer.length ∧
      splitLines copy.buffer text.bytesCount text.linesCount = .ok copy.lines := by
  unfold copyText at h
  simp only at h
  by_cases hlen : text.buffer.length < text.bytesCount
  · rw [if_pos hlen] at h; cases h
  · rw [if_neg hlen] at h
    cases hs : splitLines (text.buffer.take text.bytesCount ++ [NUL]) text.bytesCount
        text.linesCount with
    | fault e => rw [hs] at h; cases h
    | ok lines =>
      rw [hs] at h
      obtain ⟨h1, h2⟩ := Prod.mk.inj (Run.ok.inj h)
      subst h1 h2
      exact ⟨rfl, rfl, rfl, rfl, rfl, by omega, hs⟩

theorem writeTextToFile_fields (file file' : List Nat) (text text' : Text) (ret : Bool)
    (hlen : text.bytesCount ≤ text.buffer.length)
    (h : writeTextToFile file text = .ok (ret, file', text')) :
    text'.currPos = text.currPos ∧ text'.linesCount = text.linesCount ∧
      text'.lines = text.lines ∧ text'.bytesCount = text.bytesCount ∧
      ∀ i : Nat, text.bytesCount ≤ i → text'.buffer[i]? = text.buffer[i]? := by
  rw [writeTextToFile_eq file text hlen] at h
  have := (Prod.mk.inj (Prod.mk.inj (Run.ok.inj h)).2).2
  subst this
  refine ⟨rfl, rfl, rfl, rfl, ?_⟩
  intro i hi
  have htake : (text.buffer.take text.bytesCount).length = text.bytesCount := by
    rw [List.length_take]; omega
  simp only
  rw [List.getElem?_append_right (by rw [List.length_map, htake]; exact hi),
    List.length_map, htake, List.getElem?_drop]
  congr 1; omega

theorem writeTextToFile_ok_length (file file' : List Nat) (text text' : Text) (ret : Bool)
    (h : writeTextToFile file text = .ok (ret, file', text')) :
    text.bytesCount ≤ text.buffer.length := by
  by_contra hcon
  have hfault : ∀ (buffer : List Nat) (n target replacement : Nat), buffer.length < n →
      replaceAllOccurrences buffer n target replacement = .fault .outOfBounds := by
    intro buffer
    induction buffer with
    | nil =>
      intro n t r hn
      cases n with
      | zero => simp at hn
      | succ n => simp [replaceAllOccurrences]
    | cons b rest ih =>
      intro n t r hn
      cases n with
      | zero => simp at hn
      | succ n =>
        have := ih n t r (by simpa using hn)
        simp [replaceAllOccurrences, this]
  unfold writeTextToFile at h
  rw [hfault text.buffer text.bytesCount NUL NL (by omega)] at h
  cases h

/-- C16: the cursor never exceeds `linesCount`.  `currPos <= linesCount` holds
for the Text that `readTextFromFile` returns and for the copy that `copyText`
returns; on every Text on which it holds it still holds after `nextTextLine`,
`resetTextToStart`, `makeTextCaseHomogeneous` with any flag and
`writeTextToFile`; so it holds for every Text the public operations can
produce. -/
theorem cursor_invariant :
    (∀ (file : Option (List Nat)) (text : Text),
      readTextFromFile file = .ok (some text) → text.currPos ≤ text.linesCount) ∧
    (∀ text copy text' : Text,
      copyText text = .ok (copy, text') → copy.currPos ≤ copy.linesCount) ∧
    (∀ text : Text, text.currPos ≤ text.linesCount →
      (∀ (line : Option Nat) (text' : Text),
        nextTextLine text = .ok (line, text') → text'.currPos ≤ text'.linesCount) ∧
      (resetTextToStart text).currPos ≤ (resetTextToStart text).linesCount ∧
      (∀ (flag : String) (ret : Bool) (text' : Text),
        makeTextCaseHomogeneous text flag = .ok (ret, text') →
          text'.currPos ≤ text'.linesCount) ∧
      (∀ (file file' : List Nat) (ret : Bool) (text' : Text),
        writeTextToFile file text = .ok (ret, file', text') →
          text'.currPos ≤ text'.linesCount)) ∧
    (∀ text : Text, Reachable text → text.currPos ≤ text.linesCount) := by
  refine ⟨?_, ?_, ?_, ?_⟩
  · intro file text h
    obtain ⟨content, _, _, htext, _⟩ := readTextFromFile_inv file text h
    rw [htext]
    exact Nat.zero_le _
  · intro text copy text' h
    obtain ⟨_, hcur, _⟩ := copyText_fields text copy text' h
    rw [hcur]
    exact Nat.zero_le _
  · intro text hle
    refine ⟨?_, Nat.zero_le _, ?_, ?_⟩
    · intro line text' h
      rcases nextTextLine_inv text text' line h with ⟨_, _, rfl⟩ | ⟨hlt, _, rfl⟩
      · exact hle
      · exact hlt
    · intro flag ret text' h
      obtain ⟨h1, h2, _⟩ := caseHomogeneous_fields text text' flag ret h
      rw [h1, h2]
      exact hle
    · intro file file' ret text' h
      obtain ⟨h1, h2, _⟩ := writeTextToFile_fields file file' text text' ret
        (writeTextToFile_ok_length file file' text text' ret h) h
      rw [h1, h2]
      exact hle
  · intro text h
    obtain ⟨starts, pad, hv⟩ := reachable_valid h
    exact hv.cursor_le

theorem cursor_invariant_witness :
    (readTextFromFile (some [97, 66, 10, 49, 100, 10]) = .ok (some exampleText) ∧
      exampleText.currPos ≤ exampleText.linesCount) ∧
    (copyText exampleTextUpper = .ok ({ exampleTextUpper with currPos := 0 }, exampleTextUpper) ∧
      (0 : Nat) ≤ exampleTextUpper.linesCount) ∧
    (exampleTextAtEnd.currPos ≤ exampleTextAtEnd.linesCount ∧
      nextTextLine exampleTextAtEnd = .ok (none, exampleTextAtEnd) ∧
      exampleTextAtEnd.currPos ≤ exampleTextAtEnd.linesCount) ∧
    (Reachable exampleTextAtEnd ∧ exampleTextAtEnd.currPos ≤ exampleTextAtEnd.linesCount) :=
  ⟨⟨by rfl, cursor_invariant.1 (some [97, 66, 10, 49, 100, 10]) exampleText (by rfl)⟩,
    ⟨by rfl, cursor_invariant.2.1 exampleTextUpper { exampleTextUpper with currPos := 0 }
      exampleTextUpper (by rfl)⟩,
    ⟨by decide, by rfl,
      (cursor_invariant.2.2.1 exampleTextAtEnd (by decide)).1 none exampleTextAtEnd (by rfl)⟩,
    ⟨Reachable.next _ exampleTextAtEnd (some 0) (Reachable.read (some [97]) _ (by rfl)) (by rfl),
      cursor_invariant.2.2.2 exampleTextAtEnd
        (Reachable.next _ exampleTextAtEnd (some 0) (Reachable.read (some [97]) _ (by rfl))
          (by rfl))⟩⟩

/-- C17: the sentinel.  `buffer[bytesCount]` is the NUL byte in the Text that
`readTextFromFile` returns and in the copy that `copyText` returns; on every
Text in which it is, it still is after `nextTextLine`, `resetTextToStart`,
`makeTextCaseHomogeneous` with any flag and `writeTextToFile`, which leaves
every index from `bytesCount` on as it was; so it is in every Text the public
operations can produce. -/
theorem sentinel_invariant :
    (∀ (file : Option (List Nat)) (text : Text),
      readTextFromFile file = .ok (some text) → text.buffer[text.bytesCount]? = some NUL) ∧
    (∀ text copy text' : Text,
      copyText text = .ok (copy, text') → copy.buffer[copy.bytesCount]? = some NUL) ∧
    (∀ text : Text, text.buffer[text.bytesCount]? = some NUL →
      (∀ (line : Option Nat) (text' : Text),
        nextTextLine text = .ok (line, text') → text'.buffer[text'.bytesCount]? = some NUL) ∧
      (resetTextToStart text).buffer[(resetTextToStart text).bytesCount]? = some NUL ∧
      (∀ (flag : String) (ret : Bool) (text' : Text),
        makeTextCaseHomogeneous text flag = .ok (ret, text') →
          text'.buffer[text'.bytesCount]? = some NUL) ∧
      (∀ (file file' : List Nat) (ret : Bool) (text' : Text),
        writeTextToFile file text = .ok (ret, file', text') →
          text'.buffer[text'.bytesCount]? = some NUL ∧
          ∀ i : Nat, text.bytesCount ≤ i → text'.buffer[i]? = text.buffer[i]?)) ∧
    (∀ text : Text, Reachable text → text.buffer[text.bytesCount]? = some NUL) := by
  refine ⟨?_, ?_, ?_, ?_⟩
  · intro file text h
    obtain ⟨content, _, _, htext, _⟩ := readTextFromFile_inv file text h
    rw [htext]
    exact loadedBuffer_sentinel content
  · intro text copy text' h
    obtain ⟨_, _, hn, _, hbuf, hlen, _⟩ := copyText_fields text copy text' h
    have htake : (text.buffer.take text.bytesCount).length = text.bytesCount := by
      rw [List.length_take]; omega
    rw [hbuf, hn]
    have := getElem?_length_append (text.buffer.take text.bytesCount) NUL []
    rw [htake] at this
    exact this
  · intro text hs
    refine ⟨?_, hs, ?_, ?_⟩
    · intro line text' h
      rcases nextTextLine_inv text text' line h with ⟨_, _, rfl⟩ | ⟨_, _, rfl⟩
      · exact hs
      · exact hs
    · intro flag ret text' h
      obtain ⟨_, _, _, h4, h5⟩ := caseHomogeneous_fields text text' flag ret h
      rw [h4]
      exact h5 _ hs
    · intro file file' ret text' h
      obtain ⟨_, _, _, h4, h5⟩ := writeTextToFile_fields file file' text text' ret
        (writeTextToFile_ok_length file file' text text' ret h) h
      refine ⟨?_, h5⟩
      rw [h4, h5 _ (Nat.le_refl _)]
      exact hs
  · intro text h
    obtain ⟨starts, pad, hv⟩ := reachable_valid h
    exact hv.sentinel

theorem sentinel_invariant_witness :
    (readTextFromFile (some [97, 66, 10, 49, 100, 10]) = .ok (some exampleText) ∧
      exampleText.buffer[exampleText.bytesCount]? = some NUL) ∧
    (exampleText.buffer[exampleText.bytesCount]? = some NUL ∧
      writeTextToFile [] exampleText =
        .ok (true, [97, 66, 10, 49, 100, 10], exampleTextWritten) ∧
      exampleTextWritten.buffer[exampleTextWritten.bytesCount]? = some NUL ∧
      ∀ i : Nat, exampleText.bytesCount ≤ i →
        exampleTextWritten.buffer[i]? = exampleText.buffer[i]?) ∧
    (Reachable exampleTextWritten ∧
      exampleTextWritten.buffer[exampleTextWritten.bytesCount]? = some NUL) :=
  ⟨⟨by rfl, sentinel_invariant.1 (some [97, 66, 10, 49, 100, 10]) exampleText (by rfl)⟩,
    ⟨by decide, by rfl,
      (sentinel_invariant.2.2.1 exampleText (by decide)).2.2.2 [] [97, 66, 10, 49, 100, 10]
        true exampleTextWritten (by rfl)⟩,
    ⟨Reachable.write exampleText exampleTextWritten [] [97, 66, 10, 49, 100, 10] true
        (Reachable.read (some [97, 66, 10, 49, 100, 10]) exampleText (by rfl)) (by rfl),
      sentinel_invariant.2.2.2 exampleTextWritten
        (Reachable.write exampleText exampleTextWritten [] [97, 66, 10, 49, 100, 10] true
          (Reachable.read (some [97, 66, 10, 49, 100, 10]) exampleText (by rfl)) (by rfl))⟩⟩

/-! ### The claims on `copyText`, bounds and the whole pipeline -/

theorem copyText_of_recorded (text : Text) (pad : Nat)
    (hv : Valid text (recordedStarts text.buffer text.bytesCount) pad) :
    copyText text = .ok ({ text with currPos := 0 }, text) := by
  have hle : ¬ text.buffer.length < text.bytesCount := by rw [hv.buffer_length]; omega
  have hbuf := take_append_sentinel text.buffer text.bytesCount NUL hv.buffer_length hv.sentinel
  have hcount := hv.linesCount_eq
  rw [hv.lines_eq] at hcount
  simp only [List.map_cons, List.cons_append, List.length_cons, List.length_append,
    List.length_map, List.length_replicate] at hcount
  have hsplit := splitLines_ok text.buffer text.bytesCount text.linesCount hv.bytes_pos
    (by rw [hv.buffer_length]; omega) (by omega)
  have hpad : text.linesCount - 1 - (recordedStarts text.buffer text.bytesCount).length = pad := by
    omega
  rw [hpad] at hsplit
  have hlines : some 0 :: (recordedStarts text.buffer text.bytesCount).map some ++
      List.replicate pad none = text.lines := by
    rw [hv.lines_eq]; rfl
  rw [hlines] at hsplit
  simp only [copyText, if_neg hle, hbuf, hsplit]

theorem intact_valid {text : Text} (h : Intact text) :
    ∃ pad, Valid text (recordedStarts text.buffer text.bytesCount) pad := by
  induction h with
  | read file text h => exact valid_read _ _ h
  | copy t t' c hr h =>
    obtain ⟨starts, pad, hv⟩ := reachable_valid hr
    exact valid_copy hv h
  | next t t' line _ h ih =>
    obtain ⟨pad, hv⟩ := ih
    rcases nextTextLine_inv _ _ _ h with ⟨_, _, rfl⟩ | ⟨hlt, _, rfl⟩
    · exact ⟨pad, hv⟩
    · exact ⟨pad, valid_with_currPos hv _ hlt⟩
  | reset t _ ih =>
    obtain ⟨pad, hv⟩ := ih
    exact ⟨pad, valid_reset hv⟩
  | homogeneous t t' flag ret _ h ih =>
    obtain ⟨pad, hv⟩ := ih
    rcases makeTextCaseHomogeneous_inv hv h with rfl | ⟨f, hf, rfl⟩
    · exact ⟨pad, hv⟩
    · refine ⟨pad, ?_⟩
      have := valid_map hv hf
      show Valid _ (recordedStarts (t.buffer.map f) t.bytesCount) pad
      rw [recordedStarts_map hf]
      exact this

/-- C18, refuted as stated: the Text loaded from "a\nb" has the line starts 0
and 2; after `writeTextToFile` its buffer holds no NUL below the sentinel, and
`copyText` of that reachable state records the line start 0 alone and leaves
the second entry null. -/
theorem copyText_rescan_counterexample :
    readTextFromFile (some [97, 10, 98]) = .ok (some exampleTextTwoLines) ∧
      writeTextToFile [] exampleTextTwoLines = .ok (true, [97, 10, 98], exampleTextStale) ∧
      Reachable exampleTextStale ∧
      copyText exampleTextStale = .ok (exampleTextStaleCopy, exampleTextStale) ∧
      exampleTextStaleCopy.lines = [some 0, none] ∧
      exampleTextStale.lines = [some 0, some 2] ∧
      exampleTextStaleCopy.lines ≠ exampleTextStale.lines :=
  ⟨by rfl, by rfl,
    Reachable.write exampleTextTwoLines exampleTextStale [] [97, 10, 98] true
      (Reachable.read (some [97, 10, 98]) exampleTextTwoLines (by rfl)) (by rfl),
    by rfl, rfl, rfl, by decide⟩

/-- C18, amended: for every Text state the public operations can produce in
which `writeTextToFile` has not been called on the Text since
`readTextFromFile` or `copyText` returned it, `copyText` returns a copy whose
`lines` entries equal the original's entry by entry: rescanning the copied
buffer gives the offsets that copying them would give. -/
theorem copyText_rescan (text : Text) (h : Intact text) :
    ∃ copy, copyText text = .ok (copy, text) ∧ copy.lines = text.lines ∧
      copy.linesCount = text.linesCount := by
  obtain ⟨pad, hv⟩ := intact_valid h
  exact ⟨{ text with currPos := 0 }, copyText_of_recorded text pad hv, rfl, rfl⟩

theorem copyText_rescan_witness :
    Intact exampleTextStaleCopy ∧
      ∃ copy, copyText exampleTextStaleCopy = .ok (copy, exampleTextStaleCopy) ∧
        copy.lines = exampleTextStaleCopy.lines ∧
        copy.linesCount = exampleTextStaleCopy.linesCount :=
  ⟨Intact.copy exampleTextStale exampleTextStale exampleTextStaleCopy
      (Reachable.write exampleTextTwoLines exampleTextStale [] [97, 10, 98] true
        (Reachable.read (some [97, 10, 98]) exampleTextTwoLines (by rfl)) (by rfl))
      (by rfl),
    copyText_rescan exampleTextStaleCopy
      (Intact.copy exampleTextStale exampleTextStale exampleTextStaleCopy
        (Reachable.write exampleTextTwoLines exampleTextStale [] [97, 10, 98] true
          (Reachable.read (some [97, 10, 98]) exampleTextTwoLines (by rfl)) (by rfl))
        (by rfl))⟩

/-- The recording loop of `copyText` on a Text obtained from `readTextFromFile`:
the bound `bytesCount - 1` does not wrap around and the copy is returned, so
no store leaves the `lines` array. -/
theorem copyText_in_bounds (text : Text) (h : Loaded text) :
    0 < text.bytesCount ∧ sizePred text.bytesCount = text.bytesCount - 1 ∧
      ∃ copy, copyText text = .ok (copy, text) := by
  obtain ⟨pad, hv⟩ := loaded_valid h
  exact ⟨hv.bytes_pos, sizePred_pos hv.bytes_pos, _, copyText_of_recorded text pad hv⟩

/-- C19, the code at the failing input "\0a": `linesCount` is 1, the `lines`
array has the one entry `lines[0]`, and in the recording loop the byte at
`i = 0` is NUL, so the loop stores at index `currLinePos = 1`, which is not
below `linesCount`. -/
theorem lineStart_store_out_of_bounds :
    List.count NL [0, 97] + 1 = 1 ∧
      (List.replicate 1 (none : Option Nat)).set 0 (some 0) = [some 0] ∧
      ([0, 97, 0] : List Nat)[0]? = some NUL ∧
      ¬ (1 < ([some 0] : List (Option Nat)).length) ∧
      recordLineStarts [0, 97, 0] (sizePred 2) 0 [some 0] 1 = .fault .outOfBounds ∧
      readTextFromFile (some [0, 97]) = .fault .outOfBounds := by
  decide

theorem normalise_upper (b : Nat) (hb : b ≠ NUL) :
    replaceByte NUL NL (upperByte (replaceByte NL NUL b)) = upperByte b := by
  simp only [replaceByte, upperByte, NL, NUL] at *
  split_ifs <;> omega

theorem normalise_lower (b : Nat) (hb : b ≠ NUL) :
    replaceByte NUL NL (lowerByte (replaceByte NL NUL b)) = lowerByte b := by
  simp only [replaceByte, lowerByte, NL, NUL] at *
  split_ifs <;> omega

theorem writeTextToFile_normalised (content : List Nat) (f : Nat → Nat)
    (hf : ∀ b, b ≠ NUL → replaceByte NUL NL (f (replaceByte NL NUL b)) = f b)
    (hnul : NUL ∉ content) :
    ∃ text', writeTextToFile []
        { loadedText content with buffer := (loadedText content).buffer.map f } =
      .ok (true, content.map f, text') := by
  have hlen : content.length ≤ ((loadedBuffer content).map f).length := by
    simp [loadedBuffer]
  have htake : ((loadedBuffer content).map f).take content.length =
      (content.map (replaceByte NL NUL)).map f := by
    rw [loadedBuffer, List.map_append, List.take_append_of_le_length (by simp)]
    exact List.take_of_length_le (by simp)
  have hback : ((content.map (replaceByte NL NUL)).map f).map (replaceByte NUL NL) =
      content.map f := by
    rw [List.map_map, List.map_map]
    apply List.map_congr_left
    intro b hb
    exact hf b (fun h => hnul (h ▸ hb))
  have h := writeTextToFile_eq []
    { loadedText content with buffer := (loadedText content).buffer.map f } hlen
  simp only [loadedText] at h
  rw [htake, hback] at h
  exact ⟨_, by simpa [loadedText] using h⟩

/-- C20: for every non-empty content `F` without a NUL byte, loading `F`,
normalising with flag "u" and writing the text puts out exactly `|F|` bytes:
`F` with every byte 'a'..'z' replaced by its upper-case letter and every other
byte, every '\n' among them, unchanged, `writeTextToFile` returning true; with
flag "l" it puts out `F` with every byte 'A'..'Z' replaced by its lower-case
letter. -/
theorem load_normalise_write (content : List Nat) (hne : content ≠ [])
    (hnul : NUL ∉ content) :
    (∃ out, loadNormaliseWrite (some content) TEXT_CASE_FORMAT_UPPER = .ok (some (true, out)) ∧
      out.length = content.length ∧
      out = content.map (fun c => if 97 ≤ c ∧ c ≤ 122 then c - 32 else c)) ∧
    (∃ out, loadNormaliseWrite (some content) TEXT_CASE_FORMAT_LOWER = .ok (some (true, out)) ∧
      out.length = content.length ∧
      out = content.map (fun c => if 65 ≤ c ∧ c ≤ 90 then c + 32 else c)) := by
  have hread := readTextFromFile_ok content hne (recordedStarts_room content hnul)
  obtain ⟨pad, hv⟩ := valid_read _ _ hread
  have hcase := makeTextCaseHomogeneous_ok (loadedText content) _ pad hv
  constructor
  · obtain ⟨text', hw⟩ := writeTextToFile_normalised content upperByte normalise_upper hnul
    refine ⟨content.map upperByte, ?_, by simp, ?_⟩
    · simp only [loadNormaliseWrite, hread, hcase TEXT_CASE_FORMAT_UPPER, if_true, hw]
    · apply List.map_congr_left
      intro b _
      exact upperByte_eq b
  · obtain ⟨text', hw⟩ := writeTextToFile_normalised content lowerByte normalise_lower hnul
    have hu : TEXT_CASE_FORMAT_LOWER ≠ TEXT_CASE_FORMAT_UPPER := by decide
    refine ⟨content.map lowerByte, ?_, by simp, ?_⟩
    · simp only [loadNormaliseWrite, hread, hcase TEXT_CASE_FORMAT_LOWER, if_neg hu, if_true, hw]
    · apply List.map_congr_left
      intro b _
      exact lowerByte_eq b

theorem load_normalise_write_witness :
    ([97, 66, 10, 49, 100, 10] : List Nat) ≠ [] ∧ NUL ∉ ([97, 66, 10, 49, 100, 10] : List Nat) ∧
      loadNormaliseWrite (some [97, 66, 10, 49, 100, 10]) TEXT_CASE_FORMAT_UPPER =
        .ok (some (true, [65, 66, 10, 49, 68, 10])) ∧
      loadNormaliseWrite (some [97, 66, 10, 49, 100, 10]) TEXT_CASE_FORMAT_LOWER =
        .ok (some (true, [97, 98, 10, 49, 100, 10])) := by
  obtain ⟨⟨o1, h1, _, e1⟩, ⟨o2, h2, _, e2⟩⟩ :=
    load_normalise_write [97, 66, 10, 49, 100, 10] (by decide) (by decide)
  subst e1 e2
  exact ⟨by decide, by decide, h1, h2⟩

/-! ### The line count of a loaded Text -/

/-- The stored line count at the content "\0a", on which the recording loop
then leaves the `lines` array: it is 1, the number of '\n' bytes plus one. -/
theorem readTextCounts_nul_example :
    readTextCounts (some [0, 97]) = .ok (some ([0, 97, 0], 1)) ∧
      List.count NL [0, 97] + 1 = 1 := by
  decide

end FileManager
